import Mathlib

/-!
Verification of the portproxy-manager registry editor and process supervisor
(`main.go`).  The registry file (`frpc.toml`) mutators, the block parser and
the frpc process lifecycle functions are embedded as executable Lean
definitions, translated line by line from the Go source, and the spec's
claims about them are proved below.
-/

set_option maxRecDepth 8000

/-- Whitespace recognised by Go's regexp class `\s`, namely `[\t\n\f\r ]`. -/
def goSpace (c : Char) : Bool :=
  c = '\t' || c = '\n' || c = '\x0c' || c = '\r' || c = ' '

/-- Whitespace recognised by Go's `unicode.IsSpace` (used by
`strings.TrimSpace`): `\t \n \v \f \r ' '` plus NEL, NBSP and the Unicode
space separators. -/
def uSpace (c : Char) : Bool :=
  c = '\t' || c = '\n' || c = '\x0b' || c = '\x0c' || c = '\r' || c = ' ' ||
  c.toNat = 0x85 || c.toNat = 0xa0 || c.toNat = 0x1680 ||
  (0x2000 ≤ c.toNat && c.toNat ≤ 0x200a) ||
  c.toNat = 0x2028 || c.toNat = 0x2029 || c.toNat = 0x202f ||
  c.toNat = 0x205f || c.toNat = 0x3000

theorem uSpace_of_goSpace {c : Char} (h : goSpace c = true) : uSpace c = true := by
  simp only [goSpace, Bool.or_eq_true, decide_eq_true_eq] at h
  rcases h with (((h | h) | h) | h) | h <;> subst h <;> decide

theorem goSpace_newline : goSpace '\n' = true := by decide

/-- `strings.TrimSpace`: drop `unicode.IsSpace` characters from both ends of a
character sequence. -/
def trimL (cs : List Char) : List Char :=
  ((cs.dropWhile uSpace).reverse.dropWhile uSpace).reverse

/-- `strings.TrimSpace` on a string (main.go applies it to every scanned
line). -/
def trimGo (s : String) : String :=
  String.mk (trimL s.data)

/-- `strings.Split(s, "\n")` on a character sequence: the file's lines,
including a final empty piece when the text ends in a newline. -/
def splitNLc : List Char → List (List Char)
  | [] => [[]]
  | c :: cs => if c = '\n' then [] :: splitNLc cs else (splitNLc cs).modifyHead (c :: ·)

/-- `strings.Split(content, "\n")` (used by `deleteFrpProxy`). -/
def splitLines (s : String) : List String :=
  (splitNLc s.data).map String.mk

/-- `strings.Join(lines, "\n")` on character sequences. -/
def joinNLc : List (List Char) → List Char
  | [] => []
  | [l] => l
  | l :: l' :: ls => l ++ '\n' :: joinNLc (l' :: ls)

/-- `strings.Join(newLines, "\n")` (used by `deleteFrpProxy` to write the
file back). -/
def joinLines (ls : List String) : String :=
  String.mk (joinNLc (ls.map String.data))

theorem splitNLc_ne_nil (cs : List Char) : splitNLc cs ≠ [] := by
  induction cs with
  | nil => simp [splitNLc]
  | cons c cs ih =>
    simp only [splitNLc]
    split
    · simp
    · cases h : splitNLc cs with
      | nil => exact absurd h ih
      | cons a t => simp [List.modifyHead]

theorem joinNLc_splitNLc (cs : List Char) : joinNLc (splitNLc cs) = cs := by
  induction cs with
  | nil => rfl
  | cons c cs ih =>
    simp only [splitNLc]
    split
    · rename_i h
      subst h
      cases h2 : splitNLc cs with
      | nil => exact absurd h2 (splitNLc_ne_nil cs)
      | cons a t => rw [h2] at ih; simp [joinNLc, ih]
    · rename_i h
      cases h2 : splitNLc cs with
      | nil => exact absurd h2 (splitNLc_ne_nil cs)
      | cons a t =>
        rw [h2] at ih
        cases t with
        | nil => simp_all [joinNLc, List.modifyHead]
        | cons b t2 => simp_all [joinNLc, List.modifyHead]

theorem splitNLc_append_newline (a b : List Char) :
    splitNLc (a ++ '\n' :: b) = splitNLc a ++ splitNLc b := by
  induction a with
  | nil => simp [splitNLc]
  | cons c cs ih =>
    simp only [List.cons_append, splitNLc]
    split
    · simp [ih]
    · simp only [List.append_eq]
      rw [ih]
      cases h : splitNLc cs with
      | nil => exact absurd h (splitNLc_ne_nil cs)
      | cons x t => simp [List.modifyHead]

theorem splitNLc_of_not_mem (cs : List Char) (h : '\n' ∉ cs) : splitNLc cs = [cs] := by
  induction cs with
  | nil => rfl
  | cons c cs ih =>
    simp only [List.mem_cons, not_or] at h
    have hc : ¬ c = '\n' := fun hh => h.1 hh.symm
    simp only [splitNLc, if_neg hc, ih h.2, List.modifyHead]

theorem mem_splitNLc_not_newline (cs : List Char) (l : List Char)
    (hl : l ∈ splitNLc cs) : '\n' ∉ l := by
  induction cs generalizing l with
  | nil => simp only [splitNLc, List.mem_singleton] at hl; subst hl; simp
  | cons c cs ih =>
    simp only [splitNLc] at hl
    split at hl
    · rcases List.mem_cons.1 hl with h | h
      · subst h; simp
      · exact ih l h
    · rename_i hc
      cases h2 : splitNLc cs with
      | nil => exact absurd h2 (splitNLc_ne_nil cs)
      | cons a t =>
        rw [h2, List.modifyHead] at hl
        rcases List.mem_cons.1 hl with h | h
        · subst h
          intro hmem
          rcases List.mem_cons.1 hmem with h | h
          · exact hc h.symm
          · exact ih a (h2 ▸ List.mem_cons_self a t) h
        · exact ih l (h2 ▸ List.mem_cons_of_mem a h)

theorem splitNLc_joinNLc (lls : List (List Char)) (hne : lls ≠ [])
    (h : ∀ l ∈ lls, '\n' ∉ l) : splitNLc (joinNLc lls) = lls := by
  induction lls with
  | nil => exact absurd rfl hne
  | cons l ls ih =>
    cases ls with
    | nil =>
      simp only [joinNLc]
      exact splitNLc_of_not_mem l (h l (List.mem_cons_self l []))
    | cons l' ls2 =>
      simp only [joinNLc, splitNLc_append_newline]
      rw [splitNLc_of_not_mem l (h l (List.mem_cons_self l _)),
        ih (by simp) (fun x hx => h x (List.mem_cons_of_mem l hx))]
      rfl

/-- `bufio.ScanLines` drops one trailing carriage return from each line. -/
def stripCR (s : String) : String :=
  if s.data.getLast? = some '\r' then String.mk s.data.dropLast else s

/-- The sequence of lines produced by `bufio.Scanner` over `content`
(`getFrpProxies` reads the registry this way): newline-separated tokens,
without a final empty token for a trailing newline, each stripped of a
trailing `\r`. -/
def scanLines (s : String) : List String :=
  let ps := splitLines s
  (if ps.getLast? = some "" then ps.dropLast else ps).map stripCR

/-- `strings.HasPrefix(t, "[") && strings.HasSuffix(t, "]")`: the check in
`deleteFrpProxy` that a trimmed line opens another bracket-delimited
section. -/
def isHeader (t : String) : Bool :=
  (match t.data.head? with | some c => c = '[' | none => false) &&
  (match t.data.getLast? with | some c => c = ']' | none => false)

/-- A line whose trimmed text is the proxy-block marker `[[proxies]]`. -/
def isMarkerLine (l : String) : Bool :=
  trimGo l = "[[proxies]]"

/-- Strip an expected literal prefix from a character sequence (the literal
key part of the Go regexes, e.g. `name`). -/
def dropPref : List Char → List Char → Option (List Char)
  | [], cs => some cs
  | _ :: _, [] => none
  | k :: ks, c :: cs => if c = k then dropPref ks cs else none

/-- The `\s*=\s*` part of the field regexes: optional Go whitespace, a
literal `=`, optional Go whitespace. -/
def afterEq (cs : List Char) : Option (List Char) :=
  match cs.dropWhile goSpace with
  | '=' :: cs2 => some (cs2.dropWhile goSpace)
  | _ => none

/-- Characters before the last `"` of a sequence (the greedy capture of
`"(.*)"`, which extends to the final quote of the line). -/
def beforeLastQuote (cs : List Char) : List Char :=
  ((cs.reverse.dropWhile (fun c => c != '"')).drop 1).reverse

/-- Go `regexp.FindStringSubmatch` capture for a pattern of the form
`^\s*KEY\s*=\s*"(.*)"` (the `name`, `type` and `localIP` matchers in
`getFrpProxies`/`deleteFrpProxy`). -/
def matchKeyStr (key : String) (l : String) : Option String :=
  (dropPref key.data (l.data.dropWhile goSpace)).bind fun cs =>
    (afterEq cs).bind fun cs2 =>
      match cs2 with
      | '"' :: cs3 =>
        if '"' ∈ cs3 then some (String.mk (beforeLastQuote cs3)) else none
      | _ => none

/-- Go's regexp class `\d`, namely `[0-9]`. -/
def isDigitG (c : Char) : Bool :=
  48 ≤ c.toNat && c.toNat ≤ 57

/-- Go `regexp.FindStringSubmatch` capture for a pattern of the form
`^\s*KEY\s*=\s*(\d+)` (the `localPort` and `remotePort` matchers): the
greedy capture is the maximal digit run after the `=`. -/
def matchKeyNum (key : String) (l : String) : Option String :=
  (dropPref key.data (l.data.dropWhile goSpace)).bind fun cs =>
    (afterEq cs).bind fun cs2 =>
      let ds := cs2.takeWhile isDigitG
      if ds.isEmpty then none else some (String.mk ds)

/-- `FrpProxy` (main.go lines 46-52): one proxy record of the registry. -/
structure FrpProxy where
  name : String
  type : String
  localIP : String
  localPort : String
  remotePort : String
  deriving DecidableEq, Repr

/-- The Go zero value `&FrpProxy{}` opened at each `[[proxies]]` marker. -/
def emptyProxy : FrpProxy := ⟨"", "", "", "", ""⟩

/-- `AddRuleRequest` (main.go lines 55-62). -/
structure AddRuleRequest where
  listenPort : String
  connectAddr : String
  connectPort : String
  remotePort : String
  name : String
  deriving DecidableEq, Repr

/-- One step of the `if current != nil` else-if chain in `getFrpProxies`
(lines 336-348), applied to the trimmed line `t`: set whichever of the five
fields matches first, otherwise leave the record unchanged. -/
def applyField (p : FrpProxy) (t : String) : FrpProxy :=
  match matchKeyStr "name" t with
  | some v => { p with name := v }
  | none =>
    match matchKeyStr "type" t with
    | some v => { p with type := v }
    | none =>
      match matchKeyStr "localIP" t with
      | some v => { p with localIP := v }
      | none =>
        match matchKeyNum "localPort" t with
        | some v => { p with localPort := v }
        | none =>
          match matchKeyNum "remotePort" t with
          | some v => { p with remotePort := v }
          | none => p

/-- The scan loop of `getFrpProxies` (lines 325-354): `cur` is the
in-progress record (`current`); a `[[proxies]]` marker flushes it and opens
a fresh zero record; at end of input the last open record is flushed. -/
def parseGo (cur : Option FrpProxy) : List String → List FrpProxy
  | [] => cur.toList
  | l :: rest =>
    let t := trimGo l
    if t = "[[proxies]]" then
      cur.toList ++ parseGo (some emptyProxy) rest
    else
      match cur with
      | none => parseGo none rest
      | some p => parseGo (some (applyField p t)) rest

/-- `getFrpProxies` (lines 308-357) on the registry text it read: parse the
scanner's lines.  (The `os.Open` failure path propagates the error and
produces no records; the parse itself is total.) -/
def getFrpProxies (content : String) : List FrpProxy :=
  parseGo none (scanLines content)

/-- The exact block text written for a record: `appendToFrpc` (lines
401-407) and `registerWebUIToFrpc` (lines 146-152) build this string —
a leading blank separator line, the marker, and the five `key = value`
lines (strings quoted, ports bare). -/
def renderProxy (p : FrpProxy) : String :=
  "\n" ++ "[[proxies]]" ++ "\n" ++
  ("name = \"" ++ p.name ++ "\"") ++ "\n" ++
  ("type = \"" ++ p.type ++ "\"") ++ "\n" ++
  ("localIP = \"" ++ p.localIP ++ "\"") ++ "\n" ++
  ("localPort = " ++ p.localPort) ++ "\n" ++
  ("remotePort = " ++ p.remotePort) ++ "\n"

/-- The record `appendToFrpc` writes for a request (lines 398-407): name is
the composite `{name}-manager-{connectAddr}-{connectPort}`, type `tcp`,
localIP `127.0.0.1`, localPort the request's listenPort, remotePort the
request's remotePort. -/
def reqProxy (req : AddRuleRequest) : FrpProxy :=
  ⟨req.name ++ "-manager-" ++ req.connectAddr ++ "-" ++ req.connectPort,
   "tcp", "127.0.0.1", req.listenPort, req.remotePort⟩

/-- `appendToFrpc` (lines 391-413): the file is opened `O_APPEND|O_WRONLY`,
so the new content is the old content with the rendered block appended. -/
def appendToFrpc (content : String) (req : AddRuleRequest) : String :=
  content ++ renderProxy (reqProxy req)

/-- Serialization of a record sequence into an empty registry: append each
block in order (spec §8 round-trip). -/
def serializeRecs : List FrpProxy → String
  | [] => ""
  | p :: ps => renderProxy p ++ serializeRecs ps

/-- The manager configuration fields used by `registerWebUIToFrpc`
(`config.Name`, `config.WebUIProxyName`, `config.Port`,
`config.WebUIRemotePort`; ports are modelled as `Nat`, printed in decimal
as `fmt.Sprintf("%d", ·)` does). -/
structure ConfigG where
  port : Nat
  name : String
  webUIProxyName : String
  webUIRemotePort : Nat
  deriving DecidableEq, Repr

/-- The web-UI self-registration record (lines 130, 147-152): canonical name
`config.Name + "-" + config.WebUIProxyName`, type `tcp`, localIP
`127.0.0.1`, localPort the manager's own port, remotePort the configured
remote port. -/
def webProxy (cfg : ConfigG) : FrpProxy :=
  ⟨cfg.name ++ "-" ++ cfg.webUIProxyName, "tcp", "127.0.0.1",
   Nat.repr cfg.port, Nat.repr cfg.webUIRemotePort⟩

/-- `registerWebUIToFrpc` (lines 122-160) as a transformation of the
registry text: list the current records; if any has the canonical name,
return without writing; otherwise append the web-UI block. -/
def registerWebUIToFrpc (cfg : ConfigG) (content : String) : String :=
  let proxies := getFrpProxies content
  let fullName := cfg.name ++ "-" ++ cfg.webUIProxyName
  if proxies.any (fun p => p.name == fullName) then content
  else content ++ renderProxy (webProxy cfg)

/-- The loop body of `deleteFrpProxy` (lines 427-458) over the remaining
lines, with `skip` the `skipProxy` flag: a `[[proxies]]` line looks ahead at
the next line's name field and is dropped (entering skip mode) exactly when
that name equals the target; in skip mode lines are dropped until a
bracket-delimited section header, which is itself retained. -/
def deleteGo (x : String) : Bool → List String → List String
  | _, [] => []
  | skip, l :: rest =>
    if isMarkerLine l then
      match rest with
      | next :: _ =>
        match matchKeyStr "name" next with
        | some n => if n = x then deleteGo x true rest else l :: deleteGo x false rest
        | none => l :: deleteGo x false rest
      | [] => l :: deleteGo x false rest
    else if skip then
      if isHeader (trimGo l) then l :: deleteGo x false rest
      else deleteGo x true rest
    else l :: deleteGo x false rest

/-- `deleteFrpProxy` (lines 415-462): split the whole file on `\n`, filter
the lines of every block whose name matches, and join the survivors back
with `\n`. -/
def deleteFrpProxy (x : String) (content : String) : String :=
  joinLines (deleteGo x false (splitLines content))

/-- A marker line immediately followed by a line whose name field captures
exactly `x`: the condition under which `deleteFrpProxy` deletes anything. -/
def hasXAdj (x : String) : List String → Bool
  | l :: next :: rest =>
    (isMarkerLine l && matchKeyStr "name" next == some x) || hasXAdj x (next :: rest)
  | _ => false

theorem dropWhile_append_all {p : Char → Bool} {a : List Char}
    (h : ∀ x ∈ a, p x = true) (b : List Char) :
    (a ++ b).dropWhile p = b.dropWhile p := by
  induction a with
  | nil => rfl
  | cons c cs ih =>
    rw [List.cons_append, List.dropWhile_cons_of_pos (h c (List.mem_cons_self c cs))]
    exact ih (fun x hx => h x (List.mem_cons_of_mem c hx))

theorem dropWhile_append_stop {p : Char → Bool} {c : Char} (hc : p c = false)
    (a b : List Char) :
    (a ++ c :: b).dropWhile p = a.dropWhile p ++ c :: b := by
  induction a with
  | nil => simp only [List.nil_append, List.dropWhile_nil]
           exact List.dropWhile_cons_of_neg (by simp [hc])
  | cons d ds ih =>
    by_cases hd : p d = true
    · rw [List.cons_append, List.dropWhile_cons_of_pos hd, ih,
        List.dropWhile_cons_of_pos hd]
    · rw [List.cons_append, List.dropWhile_cons_of_neg (by simp_all),
        List.dropWhile_cons_of_neg (by simp_all), List.cons_append]

theorem trimL_head {sp rest : List Char} {c : Char}
    (hsp : ∀ x ∈ sp, uSpace x = true) (hc : uSpace c = false) :
    trimL (sp ++ c :: rest) = c :: (rest.reverse.dropWhile uSpace).reverse := by
  unfold trimL
  rw [dropWhile_append_all hsp, List.dropWhile_cons_of_neg (by simp [hc]),
    List.reverse_cons]
  have : rest.reverse ++ [c] = rest.reverse ++ c :: [] := rfl
  rw [this, dropWhile_append_stop hc, List.reverse_append]
  rfl

theorem trimGo_head {l : String} {sp rest : List Char} {c : Char}
    (hd : l.data = sp ++ c :: rest)
    (hsp : ∀ x ∈ sp, uSpace x = true) (hc : uSpace c = false) :
    ∃ r, (trimGo l).data = c :: r := by
  refine ⟨(rest.reverse.dropWhile uSpace).reverse, ?_⟩
  show trimL l.data = _
  rw [hd, trimL_head hsp hc]

theorem trimGo_eq_self {l : String} {c d : Char} {ms : List Char}
    (hd : l.data = c :: (ms ++ [d])) (hc : uSpace c = false)
    (hdd : uSpace d = false) :
    trimGo l = l := by
  have step : trimL l.data = l.data := by
    rw [hd]
    unfold trimL
    rw [List.dropWhile_cons_of_neg (by simp [hc]), List.reverse_cons,
      List.reverse_append, List.reverse_singleton]
    have : ([d] ++ ms.reverse) ++ [c] = d :: (ms.reverse ++ [c]) := by simp
    rw [this, List.dropWhile_cons_of_neg (by simp [hdd])]
    simp
  show String.mk (trimL l.data) = l
  rw [step]

theorem marker_decomp {l : String} (h : isMarkerLine l = true) :
    ∃ sp tr, l.data = sp ++ ("[[proxies]]".data ++ tr) ∧
      (∀ c ∈ sp, uSpace c = true) ∧ (∀ c ∈ tr, uSpace c = true) := by
  unfold isMarkerLine at h
  rw [decide_eq_true_eq] at h
  have h2 : trimL l.data = "[[proxies]]".data := congrArg String.data h
  unfold trimL at h2
  have hsplit := List.takeWhile_append_dropWhile uSpace l.data
  set A := l.data.dropWhile uSpace with hA
  have h4 : A.reverse.dropWhile uSpace = "[[proxies]]".data.reverse := by
    rw [← h2]; simp
  have h3 := List.takeWhile_append_dropWhile uSpace A.reverse
  have h5 : A = "[[proxies]]".data ++ (A.reverse.takeWhile uSpace).reverse := by
    conv_lhs => rw [← List.reverse_reverse A, ← h3]
    rw [List.reverse_append, h4]
    simp
  refine ⟨l.data.takeWhile uSpace, (A.reverse.takeWhile uSpace).reverse, ?_, ?_, ?_⟩
  · rw [← h5, hA, hsplit]
  · exact fun c hc => List.mem_takeWhile_imp hc
  · intro c hc
    rw [List.mem_reverse] at hc
    exact List.mem_takeWhile_imp hc

theorem marker_no_name {l : String} (h : isMarkerLine l = true) :
    matchKeyStr "name" l = none := by
  obtain ⟨sp, tr, hd, hsp, _⟩ := marker_decomp h
  have hmk : ("[[proxies]]".data ++ tr) = '[' :: ("[proxies]]".data ++ tr) := rfl
  rw [hmk] at hd
  unfold matchKeyStr
  rw [hd, dropWhile_append_stop (by decide)]
  have hnd : ("name" : String).data = 'n' :: ['a', 'm', 'e'] := rfl
  rw [hnd]
  cases hsq : sp.dropWhile goSpace with
  | nil => simp [dropPref]
  | cons s0 t =>
    have hs0u : uSpace s0 = true :=
      hsp s0 (List.Sublist.mem (hsq ▸ List.mem_cons_self s0 t)
        (List.dropWhile_sublist _))
    have hs0g : s0 ≠ 'n' := by
      intro hh
      rw [hh] at hs0u
      exact absurd hs0u (by decide)
    simp [dropPref, hs0g]

theorem matchName_decomp {l v : String} (h : matchKeyStr "name" l = some v) :
    ∃ sp rest, l.data = sp ++ 'n' :: rest ∧ ∀ x ∈ sp, goSpace x = true := by
  have hnd : ("name" : String).data = 'n' :: ['a', 'm', 'e'] := rfl
  have hn : ∃ r, l.data.dropWhile goSpace = 'n' :: r := by
    cases hX : l.data.dropWhile goSpace with
    | nil => unfold matchKeyStr at h; rw [hX, hnd] at h; simp [dropPref] at h
    | cons c0 r =>
      by_cases hc0 : c0 = 'n'
      · exact ⟨r, by rw [hc0]⟩
      · unfold matchKeyStr at h
        rw [hX, hnd] at h
        simp [dropPref, hc0] at h
  obtain ⟨r, hr⟩ := hn
  refine ⟨l.data.takeWhile goSpace, r, ?_, fun x hx => List.mem_takeWhile_imp hx⟩
  conv_lhs => rw [← List.takeWhile_append_dropWhile goSpace l.data]
  rw [hr]

theorem matchName_trim_head {l v : String} (h : matchKeyStr "name" l = some v) :
    ∃ r, (trimGo l).data = 'n' :: r := by
  obtain ⟨sp, rest, hd, hsp⟩ := matchName_decomp h
  exact trimGo_head hd (fun x hx => uSpace_of_goSpace (hsp x hx)) (by decide)

theorem matchName_not_header {l v : String} (h : matchKeyStr "name" l = some v) :
    isHeader (trimGo l) = false ∧ isMarkerLine l = false := by
  obtain ⟨r, hr⟩ := matchName_trim_head h
  constructor
  · unfold isHeader
    rw [hr]
    simp
  · unfold isMarkerLine
    rw [decide_eq_false_iff_not]
    intro hh
    have := congrArg String.data hh
    rw [show (trimGo l).data = trimL l.data from rfl] at hr
    rw [show (trimGo l).data = trimL l.data from rfl] at this
    rw [hr] at this
    simp at this

theorem digit_not_goSpace {c : Char} (h : isDigitG c = true) : goSpace c = false := by
  by_contra hg
  rw [Bool.not_eq_false] at hg
  simp only [goSpace, Bool.or_eq_true, decide_eq_true_eq] at hg
  rcases hg with (((hg | hg) | hg) | hg) | hg <;> subst hg <;>
    exact absurd h (by decide)

theorem digit_not_uSpace {c : Char} (h : isDigitG c = true) : uSpace c = false := by
  simp only [isDigitG, Bool.and_eq_true, decide_eq_true_eq] at h
  by_contra hg
  rw [Bool.not_eq_false] at hg
  simp only [uSpace, Bool.or_eq_true, Bool.and_eq_true, decide_eq_true_eq] at hg
  rcases hg with (((((((((((((hg | hg) | hg) | hg) | hg) | hg) | hg) | hg) | hg) |
    ⟨hg, hg2⟩) | hg) | hg) | hg) | hg) | hg
  all_goals first
    | (subst hg; exact absurd h (by decide))
    | omega

theorem dropPref_self (k rest : List Char) : dropPref k (k ++ rest) = some rest := by
  induction k with
  | nil => rfl
  | cons c cs ih => simp [dropPref, ih]

theorem beforeLastQuote_append_quote (w : List Char) :
    beforeLastQuote (w ++ ['"']) = w := by
  unfold beforeLastQuote
  rw [List.reverse_append, List.reverse_singleton, List.singleton_append,
    List.dropWhile_cons_of_neg (by decide)]
  simp

theorem afterEq_quoted (w : List Char) :
    afterEq (' ' :: '=' :: ' ' :: '"' :: w) = some ('"' :: w) := by
  unfold afterEq
  rw [List.dropWhile_cons_of_pos (by decide), List.dropWhile_cons_of_neg (by decide)]
  show some ((' ' :: '"' :: w).dropWhile goSpace) = _
  rw [List.dropWhile_cons_of_pos (by decide), List.dropWhile_cons_of_neg (by decide)]

theorem data_concat3 (a v b : String) :
    (a ++ v ++ b).data = a.data ++ (v.data ++ b.data) := by
  simp [String.data_append]

/-- Matching a quoted field against its own key always captures the written
value: `KEY = "<v>"` matches `^\s*KEY\s*=\s*"(.*)"` with capture `v` (the
greedy `.*` ends at the final quote of the line). -/
theorem matchKeyStr_own (key v : String) {c : Char} {r : List Char}
    (hkd : key.data = c :: r) (hcg : goSpace c = false) :
    matchKeyStr key (key ++ " = \"" ++ v ++ "\"") = some v := by
  unfold matchKeyStr
  have hd : (key ++ " = \"" ++ v ++ "\"").data
      = key.data ++ (' ' :: '=' :: ' ' :: '"' :: (v.data ++ ['"'])) := by
    rw [show key ++ " = \"" ++ v ++ "\"" = key ++ (" = \"" ++ v ++ "\"") by
      simp [String.append_assoc]]
    rw [String.data_append, data_concat3]
    rfl
  rw [hd, hkd, List.cons_append, List.dropWhile_cons_of_neg (by simp [hcg]),
    ← List.cons_append, ← hkd, dropPref_self, Option.some_bind, afterEq_quoted,
    Option.some_bind]
  show (if '"' ∈ v.data ++ ['"'] then some (String.mk (beforeLastQuote (v.data ++ ['"'])))
      else none) = some v
  rw [if_pos (by simp), beforeLastQuote_append_quote]

/-- Matching a bare numeric field against its own key captures the digits:
`KEY = <d>` matches `^\s*KEY\s*=\s*(\d+)` with capture `d` when `d` is a
non-empty digit run. -/
theorem matchKeyNum_own (key d : String) {c : Char} {r : List Char}
    (hkd : key.data = c :: r) (hcg : goSpace c = false)
    (hne : d.data ≠ []) (hdig : ∀ x ∈ d.data, isDigitG x = true) :
    matchKeyNum key (key ++ " = " ++ d) = some d := by
  unfold matchKeyNum
  have hd : (key ++ " = " ++ d).data = key.data ++ (' ' :: '=' :: ' ' :: d.data) := by
    rw [show key ++ " = " ++ d = key ++ (" = " ++ d) by simp [String.append_assoc]]
    rw [String.data_append, String.data_append]
    rfl
  rw [hd, hkd, List.cons_append, List.dropWhile_cons_of_neg (by simp [hcg]),
    ← List.cons_append, ← hkd, dropPref_self, Option.some_bind]
  have h2 : afterEq (' ' :: '=' :: ' ' :: d.data) = some d.data := by
    unfold afterEq
    rw [List.dropWhile_cons_of_pos (by decide), List.dropWhile_cons_of_neg (by decide)]
    show some ((' ' :: d.data).dropWhile goSpace) = _
    rw [List.dropWhile_cons_of_pos (by decide)]
    cases hD : d.data with
    | nil => exact absurd hD hne
    | cons c0 t =>
      rw [List.dropWhile_cons_of_neg (by
        simp [digit_not_goSpace (hdig c0 (hD ▸ List.mem_cons_self c0 t))])]
  rw [h2, Option.some_bind]
  show (if (d.data.takeWhile isDigitG).isEmpty then none
      else some (String.mk (d.data.takeWhile isDigitG))) = some d
  rw [List.takeWhile_eq_self_iff.mpr hdig, if_neg (by simp [hne])]

theorem matchName_nameLine (v : String) :
    matchKeyStr "name" ("name = \"" ++ v ++ "\"") = some v := by
  have h : ("name" : String) ++ " = \"" = "name = \"" := rfl
  rw [← h]
  exact matchKeyStr_own "name" v (c := 'n') (r := ['a', 'm', 'e']) rfl (by decide)

theorem matchType_typeLine (v : String) :
    matchKeyStr "type" ("type = \"" ++ v ++ "\"") = some v := by
  have h : ("type" : String) ++ " = \"" = "type = \"" := rfl
  rw [← h]
  exact matchKeyStr_own "type" v (c := 't') (r := ['y', 'p', 'e']) rfl (by decide)

theorem matchIP_ipLine (v : String) :
    matchKeyStr "localIP" ("localIP = \"" ++ v ++ "\"") = some v := by
  have h : ("localIP" : String) ++ " = \"" = "localIP = \"" := rfl
  rw [← h]
  exact matchKeyStr_own "localIP" v (c := 'l')
    (r := ['o', 'c', 'a', 'l', 'I', 'P']) rfl (by decide)

theorem matchLP_lpLine (d : String) (hne : d.data ≠ [])
    (hdig : ∀ x ∈ d.data, isDigitG x = true) :
    matchKeyNum "localPort" ("localPort = " ++ d) = some d := by
  have h : ("localPort" : String) ++ " = " = "localPort = " := rfl
  rw [← h]
  exact matchKeyNum_own "localPort" d (c := 'l')
    (r := ['o', 'c', 'a', 'l', 'P', 'o', 'r', 't']) rfl (by decide) hne hdig

theorem matchRP_rpLine (d : String) (hne : d.data ≠ [])
    (hdig : ∀ x ∈ d.data, isDigitG x = true) :
    matchKeyNum "remotePort" ("remotePort = " ++ d) = some d := by
  have h : ("remotePort" : String) ++ " = " = "remotePort = " := rfl
  rw [← h]
  exact matchKeyNum_own "remotePort" d (c := 'r')
    (r := ['e', 'm', 'o', 't', 'e', 'P', 'o', 'r', 't']) rfl (by decide) hne hdig

theorem matchName_typeLine (v : String) :
    matchKeyStr "name" ("type = \"" ++ v ++ "\"") = none := rfl

theorem matchName_ipLine (v : String) :
    matchKeyStr "name" ("localIP = \"" ++ v ++ "\"") = none := rfl

theorem matchName_lpLine (d : String) :
    matchKeyStr "name" ("localPort = " ++ d) = none := rfl

theorem matchName_rpLine (d : String) :
    matchKeyStr "name" ("remotePort = " ++ d) = none := rfl

theorem matchType_ipLine (v : String) :
    matchKeyStr "type" ("localIP = \"" ++ v ++ "\"") = none := rfl

theorem matchType_lpLine (d : String) :
    matchKeyStr "type" ("localPort = " ++ d) = none := rfl

theorem matchType_rpLine (d : String) :
    matchKeyStr "type" ("remotePort = " ++ d) = none := rfl

theorem matchIP_lpLine (d : String) :
    matchKeyStr "localIP" ("localPort = " ++ d) = none := rfl

theorem matchIP_rpLine (d : String) :
    matchKeyStr "localIP" ("remotePort = " ++ d) = none := rfl

theorem matchLP_rpLine (d : String) :
    matchKeyNum "localPort" ("remotePort = " ++ d) = none := rfl

theorem applyField_nameLine (p : FrpProxy) (v : String) :
    applyField p ("name = \"" ++ v ++ "\"") = { p with name := v } := by
  unfold applyField
  simp only [matchName_nameLine]

theorem applyField_typeLine (p : FrpProxy) (v : String) :
    applyField p ("type = \"" ++ v ++ "\"") = { p with type := v } := by
  unfold applyField
  simp only [matchName_typeLine, matchType_typeLine]

theorem applyField_ipLine (p : FrpProxy) (v : String) :
    applyField p ("localIP = \"" ++ v ++ "\"") = { p with localIP := v } := by
  unfold applyField
  simp only [matchName_ipLine, matchType_ipLine, matchIP_ipLine]

theorem applyField_lpLine (p : FrpProxy) (d : String) (hne : d.data ≠ [])
    (hdig : ∀ x ∈ d.data, isDigitG x = true) :
    applyField p ("localPort = " ++ d) = { p with localPort := d } := by
  unfold applyField
  simp only [matchName_lpLine, matchType_lpLine, matchIP_lpLine,
    matchLP_lpLine d hne hdig]

theorem applyField_rpLine (p : FrpProxy) (d : String) (hne : d.data ≠ [])
    (hdig : ∀ x ∈ d.data, isDigitG x = true) :
    applyField p ("remotePort = " ++ d) = { p with remotePort := d } := by
  unfold applyField
  simp only [matchName_rpLine, matchType_rpLine, matchIP_rpLine,
    matchLP_rpLine, matchRP_rpLine d hne hdig]

theorem trimGo_quoted_line (key v : String) {c : Char} {r : List Char}
    (hkd : key.data = c :: r) (hcu : uSpace c = false) :
    trimGo (key ++ " = \"" ++ v ++ "\"") = key ++ " = \"" ++ v ++ "\"" := by
  have hd : (key ++ " = \"" ++ v ++ "\"").data
      = c :: ((r ++ (' ' :: '=' :: ' ' :: '"' :: v.data)) ++ ['"']) := by
    rw [show key ++ " = \"" ++ v ++ "\"" = key ++ (" = \"" ++ v ++ "\"") by
      simp [String.append_assoc]]
    rw [String.data_append, data_concat3, hkd,
      show (" = \"" : String).data = [' ', '=', ' ', '"'] from rfl,
      show ("\"" : String).data = ['"'] from rfl]
    simp
  exact trimGo_eq_self hd hcu (by decide)

theorem trimGo_num_line (key d : String) {c : Char} {r : List Char}
    (hkd : key.data = c :: r) (hcu : uSpace c = false)
    (hne : d.data ≠ []) (hdig : ∀ x ∈ d.data, isDigitG x = true) :
    trimGo (key ++ " = " ++ d) = key ++ " = " ++ d := by
  obtain ⟨ds, dl, hds⟩ : ∃ ds dl, d.data = ds ++ [dl] :=
    ⟨d.data.dropLast, d.data.getLast hne, (List.dropLast_append_getLast hne).symm⟩
  have hdl : uSpace dl = false := digit_not_uSpace (hdig dl (by rw [hds]; simp))
  have hd : (key ++ " = " ++ d).data = c :: ((r ++ (' ' :: '=' :: ' ' :: ds)) ++ [dl]) := by
    rw [show key ++ " = " ++ d = key ++ (" = " ++ d) by simp [String.append_assoc],
      String.data_append, String.data_append, hkd, hds,
      show (" = " : String).data = [' ', '=', ' '] from rfl]
    simp
  exact trimGo_eq_self hd hcu hdl

/-- Well-formedness of a record for byte-level round-trips: the quoted
fields contain no newline and the ports are non-empty digit runs (spec §8:
"well-formed sequence of records"). -/
def noNL (s : String) : Bool := decide ('\n' ∉ s.data)

/-- A non-empty all-digit string (what the writers emit for ports). -/
def isDigits (s : String) : Bool := decide (s.data ≠ []) && s.data.all isDigitG

def wfRecord (p : FrpProxy) : Bool :=
  noNL p.name && noNL p.type && noNL p.localIP &&
  isDigits p.localPort && isDigits p.remotePort

theorem wfRecord_fields {p : FrpProxy} (h : wfRecord p = true) :
    ('\n' ∉ p.name.data) ∧ ('\n' ∉ p.type.data) ∧ ('\n' ∉ p.localIP.data) ∧
    (p.localPort.data ≠ [] ∧ ∀ x ∈ p.localPort.data, isDigitG x = true) ∧
    (p.remotePort.data ≠ [] ∧ ∀ x ∈ p.remotePort.data, isDigitG x = true) := by
  simp only [wfRecord, noNL, isDigits, Bool.and_eq_true, decide_eq_true_eq,
    List.all_eq_true] at h
  exact ⟨h.1.1.1.1, h.1.1.1.2, h.1.1.2, h.1.2, h.2⟩

theorem digits_no_newline {d : List Char} (hdig : ∀ x ∈ d, isDigitG x = true) :
    '\n' ∉ d :=
  fun hm => absurd (hdig '\n' hm) (by decide)

theorem string_ne_marker {l : String} {c : Char} {r : List Char}
    (hd : l.data = c :: r) (hc : c ≠ '[') : l ≠ "[[proxies]]" := by
  intro he
  rw [he, show ("[[proxies]]" : String).data = '[' :: "[proxies]]".data from rfl] at hd
  injection hd with h1 _
  exact hc h1.symm

theorem data_quoted_line (key v : String) {c : Char} {r : List Char}
    (hkd : key.data = c :: r) :
    (key ++ " = \"" ++ v ++ "\"").data
      = c :: ((r ++ (' ' :: '=' :: ' ' :: '"' :: v.data)) ++ ['"']) := by
  rw [show key ++ " = \"" ++ v ++ "\"" = key ++ (" = \"" ++ v ++ "\"") by
    simp [String.append_assoc]]
  rw [String.data_append, data_concat3, hkd,
    show (" = \"" : String).data = [' ', '=', ' ', '"'] from rfl,
    show ("\"" : String).data = ['"'] from rfl]
  simp

theorem data_num_line (key d : String) {c : Char} {r : List Char}
    (hkd : key.data = c :: r) :
    (key ++ " = " ++ d).data = c :: (r ++ (' ' :: '=' :: ' ' :: d.data)) := by
  rw [show key ++ " = " ++ d = key ++ (" = " ++ d) by simp [String.append_assoc],
    String.data_append, String.data_append, hkd,
    show (" = " : String).data = [' ', '=', ' '] from rfl]
  simp

theorem parseGo_cons_empty (cur : Option FrpProxy) (rest : List String) :
    parseGo cur ("" :: rest) = parseGo cur rest := by
  cases cur <;> rfl

theorem parseGo_cons_marker (cur : Option FrpProxy) {l : String}
    (hm : trimGo l = "[[proxies]]") (rest : List String) :
    parseGo cur (l :: rest) = cur.toList ++ parseGo (some emptyProxy) rest := by
  simp [parseGo, hm]

theorem parseGo_cons_some (p : FrpProxy) {l : String}
    (hm : ¬ trimGo l = "[[proxies]]") (rest : List String) :
    parseGo (some p) (l :: rest) = parseGo (some (applyField p (trimGo l))) rest := by
  simp [parseGo, hm]

theorem splitNLc_cons_newline (cs : List Char) :
    splitNLc ('\n' :: cs) = [] :: splitNLc cs := by
  simp [splitNLc]

theorem mkData (s : String) : String.mk s.data = s := rfl

/-- Splitting a rendered block off the front of a file: the block contributes
its separator line, the marker and the five field lines. -/
theorem splitLines_render (p : FrpProxy) (h : wfRecord p = true) (s : String) :
    splitLines (renderProxy p ++ s) =
      "" :: "[[proxies]]" :: ("name = \"" ++ p.name ++ "\"") ::
      ("type = \"" ++ p.type ++ "\"") :: ("localIP = \"" ++ p.localIP ++ "\"") ::
      ("localPort = " ++ p.localPort) :: ("remotePort = " ++ p.remotePort) ::
      splitLines s := by
  obtain ⟨hn, ht, hi, ⟨hlpne, hlpd⟩, ⟨hrpne, hrpd⟩⟩ := wfRecord_fields h
  have hm1 : '\n' ∉ ("[[proxies]]" : String).data := by decide
  have hm2 : '\n' ∉ ("name = \"" ++ p.name ++ "\"").data := by
    rw [data_concat3]
    simp only [List.mem_append, not_or]
    exact ⟨by decide, hn, by decide⟩
  have hm3 : '\n' ∉ ("type = \"" ++ p.type ++ "\"").data := by
    rw [data_concat3]
    simp only [List.mem_append, not_or]
    exact ⟨by decide, ht, by decide⟩
  have hm4 : '\n' ∉ ("localIP = \"" ++ p.localIP ++ "\"").data := by
    rw [data_concat3]
    simp only [List.mem_append, not_or]
    exact ⟨by decide, hi, by decide⟩
  have hm5 : '\n' ∉ ("localPort = " ++ p.localPort).data := by
    rw [String.data_append]
    simp only [List.mem_append, not_or]
    exact ⟨by decide, digits_no_newline hlpd⟩
  have hm6 : '\n' ∉ ("remotePort = " ++ p.remotePort).data := by
    rw [String.data_append]
    simp only [List.mem_append, not_or]
    exact ⟨by decide, digits_no_newline hrpd⟩
  have hdata : (renderProxy p ++ s).data
      = '\n' :: (("[[proxies]]" : String).data ++
        '\n' :: (("name = \"" ++ p.name ++ "\"").data ++
        '\n' :: (("type = \"" ++ p.type ++ "\"").data ++
        '\n' :: (("localIP = \"" ++ p.localIP ++ "\"").data ++
        '\n' :: (("localPort = " ++ p.localPort).data ++
        '\n' :: (("remotePort = " ++ p.remotePort).data ++
        '\n' :: s.data)))))) := by
    simp [renderProxy, String.data_append, List.append_assoc]
  rw [show splitLines (renderProxy p ++ s)
      = (splitNLc (renderProxy p ++ s).data).map String.mk from rfl, hdata,
    splitNLc_cons_newline, splitNLc_append_newline, splitNLc_append_newline,
    splitNLc_append_newline, splitNLc_append_newline, splitNLc_append_newline,
    splitNLc_append_newline,
    splitNLc_of_not_mem _ hm1, splitNLc_of_not_mem _ hm2,
    splitNLc_of_not_mem _ hm3, splitNLc_of_not_mem _ hm4,
    splitNLc_of_not_mem _ hm5, splitNLc_of_not_mem _ hm6]
  simp [splitLines, mkData, show String.mk ([] : List Char) = "" from rfl]
  refine ⟨String.ext ?_, String.ext ?_, String.ext ?_, String.ext ?_,
    String.ext ?_⟩ <;> simp [data_concat3, String.data_append]

/-- Parsing a serialized record sequence recovers exactly those records
(with any in-progress record flushed in front). -/
theorem parseGo_serialize (ps : List FrpProxy) (h : ∀ p ∈ ps, wfRecord p = true) :
    ∀ cur : Option FrpProxy,
      parseGo cur (splitLines (serializeRecs ps)) = cur.toList ++ ps := by
  induction ps with
  | nil =>
    intro cur
    rw [show serializeRecs [] = "" from rfl, show splitLines "" = [""] from rfl,
      parseGo_cons_empty]
    cases cur <;> simp [parseGo]
  | cons p ps ih =>
    intro cur
    have hp : wfRecord p = true := h p (List.mem_cons_self p ps)
    obtain ⟨_, _, _, ⟨hlpne, hlpd⟩, ⟨hrpne, hrpd⟩⟩ := wfRecord_fields hp
    rw [show serializeRecs (p :: ps) = renderProxy p ++ serializeRecs ps from rfl,
      splitLines_render p hp, parseGo_cons_empty,
      parseGo_cons_marker cur (by rfl)]
    have s1 : trimGo ("name = \"" ++ p.name ++ "\"") = "name = \"" ++ p.name ++ "\"" :=
      trimGo_quoted_line "name" p.name rfl (by decide)
    have s2 : trimGo ("type = \"" ++ p.type ++ "\"") = "type = \"" ++ p.type ++ "\"" :=
      trimGo_quoted_line "type" p.type rfl (by decide)
    have s3 : trimGo ("localIP = \"" ++ p.localIP ++ "\"")
        = "localIP = \"" ++ p.localIP ++ "\"" :=
      trimGo_quoted_line "localIP" p.localIP rfl (by decide)
    have s4 : trimGo ("localPort = " ++ p.localPort) = "localPort = " ++ p.localPort :=
      trimGo_num_line "localPort" p.localPort rfl (by decide) hlpne hlpd
    have s5 : trimGo ("remotePort = " ++ p.remotePort)
        = "remotePort = " ++ p.remotePort :=
      trimGo_num_line "remotePort" p.remotePort rfl (by decide) hrpne hrpd
    have n1 : ¬ trimGo ("name = \"" ++ p.name ++ "\"") = "[[proxies]]" := by
      rw [s1]; exact string_ne_marker (data_quoted_line "name" p.name rfl) (by decide)
    have n2 : ¬ trimGo ("type = \"" ++ p.type ++ "\"") = "[[proxies]]" := by
      rw [s2]; exact string_ne_marker (data_quoted_line "type" p.type rfl) (by decide)
    have n3 : ¬ trimGo ("localIP = \"" ++ p.localIP ++ "\"") = "[[proxies]]" := by
      rw [s3]
      exact string_ne_marker (data_quoted_line "localIP" p.localIP rfl) (by decide)
    have n4 : ¬ trimGo ("localPort = " ++ p.localPort) = "[[proxies]]" := by
      rw [s4]
      exact string_ne_marker (data_num_line "localPort" p.localPort rfl) (by decide)
    have n5 : ¬ trimGo ("remotePort = " ++ p.remotePort) = "[[proxies]]" := by
      rw [s5]
      exact string_ne_marker (data_num_line "remotePort" p.remotePort rfl) (by decide)
    rw [parseGo_cons_some _ n1, s1, applyField_nameLine,
      parseGo_cons_some _ n2, s2, applyField_typeLine,
      parseGo_cons_some _ n3, s3, applyField_ipLine,
      parseGo_cons_some _ n4, s4, applyField_lpLine _ _ hlpne hlpd,
      parseGo_cons_some _ n5, s5, applyField_rpLine _ _ hrpne hrpd]
    show cur.toList ++ parseGo (some p) (splitLines (serializeRecs ps)) = _
    rw [ih (fun q hq => h q (List.mem_cons_of_mem p hq)) (some p)]
    simp [Option.toList]

theorem trimL_append_space {c : Char} (hc : uSpace c = true) :
    ∀ cs, trimL (cs ++ [c]) = trimL cs := by
  intro cs
  induction cs with
  | nil =>
    show trimL [c] = trimL []
    unfold trimL
    rw [show ([c] : List Char) = [c] ++ [] by simp,
      dropWhile_append_all (by simp [hc]) []]
  | cons d ds ih =>
    by_cases hd : uSpace d = true
    · unfold trimL at ih ⊢
      rw [List.cons_append, List.dropWhile_cons_of_pos hd,
        List.dropWhile_cons_of_pos hd]
      exact ih
    · unfold trimL
      rw [List.cons_append, List.dropWhile_cons_of_neg (by simp [hd]),
        List.dropWhile_cons_of_neg (by simp [hd]),
        show (d :: (ds ++ [c])) = (d :: ds) ++ [c] by simp,
        List.reverse_append, List.reverse_singleton, List.singleton_append,
        List.dropWhile_cons_of_pos hc]

theorem trimGo_stripCR (l : String) : trimGo (stripCR l) = trimGo l := by
  unfold stripCR
  split
  · rename_i hlast
    have hne : l.data ≠ [] := by
      intro h0
      rw [h0] at hlast
      simp at hlast
    have hget : l.data.getLast hne = '\r' := by
      rw [List.getLast?_eq_getLast l.data hne] at hlast
      injection hlast
    show String.mk (trimL l.data.dropLast) = String.mk (trimL l.data)
    congr 1
    conv_rhs => rw [← List.dropLast_append_getLast hne, hget]
    exact (trimL_append_space (by decide) _).symm
  · rfl

theorem parseGo_cons_none {l : String} (hm : ¬ trimGo l = "[[proxies]]")
    (rest : List String) : parseGo none (l :: rest) = parseGo none rest := by
  simp [parseGo, hm]

theorem parseGo_map_stripCR (ls : List String) :
    ∀ cur, parseGo cur (ls.map stripCR) = parseGo cur ls := by
  induction ls with
  | nil => intro cur; rfl
  | cons l ls ih =>
    intro cur
    show parseGo cur (stripCR l :: ls.map stripCR) = _
    by_cases hm : trimGo l = "[[proxies]]"
    · rw [parseGo_cons_marker cur (by rw [trimGo_stripCR]; exact hm),
        parseGo_cons_marker cur hm, ih]
    · have hm2 : ¬ trimGo (stripCR l) = "[[proxies]]" := by
        rw [trimGo_stripCR]; exact hm
      cases cur with
      | none => rw [parseGo_cons_none hm2, parseGo_cons_none hm, ih]
      | some p =>
        rw [parseGo_cons_some p hm2, parseGo_cons_some p hm, trimGo_stripCR, ih]

theorem parseGo_append_empty (ls : List String) :
    ∀ cur, parseGo cur (ls ++ [""]) = parseGo cur ls := by
  induction ls with
  | nil => intro cur; rw [List.nil_append, parseGo_cons_empty]
  | cons l ls ih =>
    intro cur
    by_cases hm : trimGo l = "[[proxies]]"
    · rw [List.cons_append, parseGo_cons_marker cur hm, parseGo_cons_marker cur hm, ih]
    · cases cur with
      | none => rw [List.cons_append, parseGo_cons_none hm, parseGo_cons_none hm, ih]
      | some p =>
        rw [List.cons_append, parseGo_cons_some p hm, parseGo_cons_some p hm, ih]

theorem splitLines_ne_nil (s : String) : splitLines s ≠ [] := by
  unfold splitLines
  simp [splitNLc_ne_nil]

/-- The scanner's line sequence and `strings.Split`'s line sequence parse to
the same records. -/
theorem getFrpProxies_eq_split (s : String) :
    getFrpProxies s = parseGo none (splitLines s) := by
  show parseGo none
      (((if (splitLines s).getLast? = some "" then (splitLines s).dropLast
        else splitLines s)).map stripCR) = _
  rw [parseGo_map_stripCR]
  by_cases hl : (splitLines s).getLast? = some ""
  · rw [if_pos hl]
    have hne := splitLines_ne_nil s
    have hget : (splitLines s).getLast hne = "" := by
      rw [List.getLast?_eq_getLast _ hne] at hl
      injection hl
    conv_rhs => rw [← List.dropLast_append_getLast hne, hget]
    rw [parseGo_append_empty]
  · rw [if_neg hl]

theorem parseGo_length (ls : List String) :
    ∀ cur, (parseGo cur ls).length = ls.countP isMarkerLine + cur.toList.length := by
  induction ls with
  | nil => intro cur; cases cur <;> simp [parseGo]
  | cons l ls ih =>
    intro cur
    by_cases hm : trimGo l = "[[proxies]]"
    · rw [parseGo_cons_marker cur hm]
      have hml : isMarkerLine l = true := by simp [isMarkerLine, hm]
      simp [List.countP_cons, hml, ih]
      omega
    · have hml : isMarkerLine l = false := by simp [isMarkerLine, hm]
      cases cur with
      | none =>
        rw [parseGo_cons_none hm]
        simp [List.countP_cons, hml, ih]
      | some p =>
        rw [parseGo_cons_some p hm]
        simp [List.countP_cons, hml, ih]

theorem deleteGo_cons_marker_skipX {x l next : String} (hm : isMarkerLine l = true)
    (hn : matchKeyStr "name" next = some x) (rest : List String) (skip : Bool) :
    deleteGo x skip (l :: next :: rest) = deleteGo x true (next :: rest) := by
  simp [deleteGo, hm, hn]

theorem deleteGo_cons_marker_keep {x l next : String} (hm : isMarkerLine l = true)
    (rest : List String) (skip : Bool)
    (h : ∀ n, matchKeyStr "name" next = some n → n ≠ x) :
    deleteGo x skip (l :: next :: rest) = l :: deleteGo x false (next :: rest) := by
  cases hc : matchKeyStr "name" next with
  | none => simp [deleteGo, hm, hc]
  | some n => simp [deleteGo, hm, hc, h n hc]

theorem deleteGo_marker_last {x l : String} (hm : isMarkerLine l = true)
    (skip : Bool) : deleteGo x skip [l] = [l] := by
  simp [deleteGo, hm]

theorem deleteGo_cons_plain_false {x l : String} (hm : isMarkerLine l = false)
    (rest : List String) :
    deleteGo x false (l :: rest) = l :: deleteGo x false rest := by
  simp [deleteGo, hm]

theorem deleteGo_cons_skip_header {x l : String} (hm : isMarkerLine l = false)
    (hh : isHeader (trimGo l) = true) (rest : List String) :
    deleteGo x true (l :: rest) = l :: deleteGo x false rest := by
  simp [deleteGo, hm, hh]

theorem deleteGo_cons_skip_drop {x l : String} (hm : isMarkerLine l = false)
    (hh : isHeader (trimGo l) = false) (rest : List String) :
    deleteGo x true (l :: rest) = deleteGo x true rest := by
  simp [deleteGo, hm, hh]

theorem marker_isHeader : isHeader "[[proxies]]" = true := by decide

theorem not_marker_of_not_header {l : String} (h : isHeader (trimGo l) = false) :
    isMarkerLine l = false := by
  by_contra hb
  rw [Bool.not_eq_false, isMarkerLine, decide_eq_true_eq] at hb
  rw [hb] at h
  exact absurd h (by decide)

theorem deleteGo_keep_plain {x : String} {ls : List String}
    (h : ∀ l ∈ ls, isMarkerLine l = false) (rest : List String) :
    deleteGo x false (ls ++ rest) = ls ++ deleteGo x false rest := by
  induction ls with
  | nil => rfl
  | cons l t ih =>
    rw [List.cons_append,
      deleteGo_cons_plain_false (h l (List.mem_cons_self l t)),
      ih (fun m hm => h m (List.mem_cons_of_mem l hm)), List.cons_append]

theorem deleteGo_skip_drop_all {x : String} {ls : List String}
    (h : ∀ l ∈ ls, isHeader (trimGo l) = false) (rest : List String) :
    deleteGo x true (ls ++ rest) = deleteGo x true rest := by
  induction ls with
  | nil => rfl
  | cons l t ih =>
    rw [List.cons_append,
      deleteGo_cons_skip_drop
        (not_marker_of_not_header (h l (List.mem_cons_self l t)))
        (h l (List.mem_cons_self l t)),
      ih (fun m hm => h m (List.mem_cons_of_mem l hm))]

theorem deleteGo_sublist (x : String) :
    ∀ (ls : List String) (skip : Bool), List.Sublist (deleteGo x skip ls) ls := by
  intro ls
  induction ls with
  | nil => intro skip; simp [deleteGo]
  | cons l rest ih =>
    intro skip
    by_cases hm : isMarkerLine l = true
    · cases rest with
      | nil => rw [deleteGo_marker_last hm]
      | cons next rs =>
        cases hc : matchKeyStr "name" next with
        | some n =>
          by_cases hnx : n = x
          · subst hnx
            rw [deleteGo_cons_marker_skipX hm hc]
            exact (ih true).cons l
          · rw [deleteGo_cons_marker_keep hm _ skip
              (fun m hmm => by rw [hc] at hmm; injection hmm with he; rw [← he]; exact hnx)]
            exact (ih false).cons₂ l
        | none =>
          rw [deleteGo_cons_marker_keep hm _ skip
            (fun m hmm => by rw [hc] at hmm; cases hmm)]
          exact (ih false).cons₂ l
    · have hm' : isMarkerLine l = false := by simpa using hm
      cases skip with
      | false =>
        rw [deleteGo_cons_plain_false hm']
        exact (ih false).cons₂ l
      | true =>
        by_cases hh : isHeader (trimGo l) = true
        · rw [deleteGo_cons_skip_header hm' hh]
          exact (ih false).cons₂ l
        · rw [deleteGo_cons_skip_drop hm' (by simpa using hh)]
          exact (ih true).cons l

theorem deleteGo_noop {x : String} :
    ∀ ls, hasXAdj x ls = false → deleteGo x false ls = ls := by
  intro ls
  induction ls with
  | nil => intro _; rfl
  | cons l rest ih =>
    intro h
    cases rest with
    | nil =>
      by_cases hm : isMarkerLine l = true
      · exact deleteGo_marker_last hm false
      · rw [deleteGo_cons_plain_false (by simpa using hm)]
        rfl
    | cons next rs =>
      have h' : (isMarkerLine l && (matchKeyStr "name" next == some x)) = false ∧
          hasXAdj x (next :: rs) = false := by
        have := h
        simp only [hasXAdj, Bool.or_eq_true, Bool.or_eq_false_iff] at this
        exact this
      obtain ⟨h1, h2⟩ := h'
      by_cases hm : isMarkerLine l = true
      · have hne : ∀ n, matchKeyStr "name" next = some n → n ≠ x := by
          intro n hn he
          subst he
          rw [hm, hn] at h1
          simp at h1
        rw [deleteGo_cons_marker_keep hm _ false hne, ih h2]
      · rw [deleteGo_cons_plain_false (by simpa using hm), ih h2]

theorem head_bracket_no_name {l : String} (h : (trimL l.data).head? = some '[') :
    matchKeyStr "name" l = none := by
  obtain ⟨T, hT⟩ : ∃ T, trimL l.data = '[' :: T := by
    cases hc : trimL l.data with
    | nil => rw [hc] at h; simp at h
    | cons a t =>
      rw [hc] at h
      simp only [List.head?_cons, Option.some.injEq] at h
      exact ⟨t, by rw [h]⟩
  have hsplit := List.takeWhile_append_dropWhile uSpace l.data
  set A := l.data.dropWhile uSpace with hA
  have h3 := List.takeWhile_append_dropWhile uSpace A.reverse
  have h5 : A = ('[' :: T) ++ (A.reverse.takeWhile uSpace).reverse := by
    conv_lhs => rw [← List.reverse_reverse A, ← h3]
    rw [List.reverse_append, ← hT]
    rfl
  have hsp : ∀ c ∈ l.data.takeWhile uSpace, uSpace c = true :=
    fun c hc => List.mem_takeWhile_imp hc
  have hd : l.data = l.data.takeWhile uSpace ++
      ('[' :: (T ++ (A.reverse.takeWhile uSpace).reverse)) := by
    conv_lhs => rw [← hsplit, h5]
    simp
  unfold matchKeyStr
  rw [hd, dropWhile_append_stop (by decide)]
  have hnd : ("name" : String).data = 'n' :: ['a', 'm', 'e'] := rfl
  rw [hnd]
  cases hsq : (l.data.takeWhile uSpace).dropWhile goSpace with
  | nil => simp [dropPref]
  | cons s0 t =>
    have hs0u : uSpace s0 = true :=
      hsp s0 (List.Sublist.mem (hsq ▸ List.mem_cons_self s0 t)
        (List.dropWhile_sublist _))
    have hs0g : s0 ≠ 'n' := by
      intro hh
      rw [hh] at hs0u
      exact absurd hs0u (by decide)
    simp [dropPref, hs0g]

theorem header_no_name {l : String} (h : isHeader (trimGo l) = true) :
    matchKeyStr "name" l = none := by
  simp only [isHeader, Bool.and_eq_true] at h
  have h1 : (match (trimL l.data).head? with
      | some c => decide (c = '[') | none => false) = true := h.1
  apply head_bracket_no_name
  cases hh : (trimL l.data).head? with
  | none => rw [hh] at h1; simp at h1
  | some c =>
    rw [hh] at h1
    simp only [decide_eq_true_eq] at h1
    rw [h1]

theorem marker_line_no_name {l : String} (hm : isMarkerLine l = true) :
    matchKeyStr "name" l = none :=
  marker_no_name hm

/-- The head of a line sequence is not a name-line capturing `x`. -/
def headNotX (x : String) : List String → Prop
  | [] => True
  | h :: _ => matchKeyStr "name" h ≠ some x

theorem hasXAdj_cons_false {x l : String} {out : List String}
    (h1 : isMarkerLine l = false ∨ headNotX x out)
    (h2 : hasXAdj x out = false) :
    hasXAdj x (l :: out) = false := by
  cases out with
  | nil => rfl
  | cons h t =>
    show ((isMarkerLine l && (matchKeyStr "name" h == some x)) || hasXAdj x (h :: t))
        = false
    rw [h2, Bool.or_false]
    rcases h1 with hml | hn
    · rw [hml, Bool.false_and]
    · have hb : (matchKeyStr "name" h == some x) = false := by
        rw [beq_eq_false_iff_ne]
        exact hn
      rw [hb, Bool.and_false]

/-- After one delete pass no block named `x` remains adjacent to a marker:
the output of `deleteGo` contains no `[[proxies]]` line whose successor's
name field captures `x`, and a skip-mode run never begins with such a
name-line. -/
theorem deleteGo_out_clean (x : String) :
    ∀ n ls, ls.length ≤ n →
      (∀ skip, hasXAdj x (deleteGo x skip ls) = false) ∧
      headNotX x (deleteGo x true ls) ∧
      (∀ next rs, ls = next :: rs → matchKeyStr "name" next ≠ some x →
        headNotX x (deleteGo x false ls)) := by
  intro n
  induction n with
  | zero =>
    intro ls hl
    have h0 : ls = [] := List.length_eq_zero.mp (Nat.le_zero.mp hl)
    subst h0
    exact ⟨fun _ => rfl, trivial, fun _ _ h _ => by cases h⟩
  | succ n ih =>
    intro ls hl
    cases ls with
    | nil => exact ⟨fun _ => rfl, trivial, fun _ _ h _ => by cases h⟩
    | cons l rest =>
      have hrest : rest.length ≤ n := by
        simp only [List.length_cons] at hl
        omega
      obtain ⟨ihAdj, ihHead, ihFalse⟩ := ih rest hrest
      by_cases hm : isMarkerLine l = true
      · have hlnone : matchKeyStr "name" l = none := marker_no_name hm
        cases rest with
        | nil =>
          refine ⟨fun skip => ?_, ?_, ?_⟩
          · rw [deleteGo_marker_last hm]
            rfl
          · rw [deleteGo_marker_last hm]
            intro hq
            rw [hlnone] at hq
            cases hq
          · intro next' rs' he _
            rw [deleteGo_marker_last hm]
            intro hq
            rw [hlnone] at hq
            cases hq
        | cons next rs =>
          cases hc : matchKeyStr "name" next with
          | some m =>
            by_cases hmx : m = x
            · subst hmx
              refine ⟨fun skip => ?_, ?_, ?_⟩
              · rw [deleteGo_cons_marker_skipX hm hc]
                exact ihAdj true
              · rw [deleteGo_cons_marker_skipX hm hc]
                exact ihHead
              · intro next' rs' he hne
                rw [deleteGo_cons_marker_skipX hm hc]
                exact ihHead
            · have hkeep : ∀ n', matchKeyStr "name" next = some n' → n' ≠ x := by
                intro n' h' hq
                rw [hc] at h'
                injection h' with he
                exact hmx (by rw [he]; exact hq)
              have hne : matchKeyStr "name" next ≠ some x := by
                rw [hc]
                intro hq
                injection hq with he
                exact hmx he
              refine ⟨fun skip => ?_, ?_, ?_⟩
              · rw [deleteGo_cons_marker_keep hm _ _ hkeep]
                exact hasXAdj_cons_false (Or.inr (ihFalse next rs rfl hne)) (ihAdj false)
              · rw [deleteGo_cons_marker_keep hm _ _ hkeep]
                intro hq
                rw [hlnone] at hq
                cases hq
              · intro next' rs' he hne'
                rw [deleteGo_cons_marker_keep hm _ _ hkeep]
                intro hq
                rw [hlnone] at hq
                cases hq
          | none =>
            have hkeep : ∀ n', matchKeyStr "name" next = some n' → n' ≠ x := by
              intro n' h'
              rw [hc] at h'
              cases h'
            have hne : matchKeyStr "name" next ≠ some x := by
              rw [hc]
              intro hq
              cases hq
            refine ⟨fun skip => ?_, ?_, ?_⟩
            · rw [deleteGo_cons_marker_keep hm _ _ hkeep]
              exact hasXAdj_cons_false (Or.inr (ihFalse next rs rfl hne)) (ihAdj false)
            · rw [deleteGo_cons_marker_keep hm _ _ hkeep]
              intro hq
              rw [hlnone] at hq
              cases hq
            · intro next' rs' he hne'
              rw [deleteGo_cons_marker_keep hm _ _ hkeep]
              intro hq
              rw [hlnone] at hq
              cases hq
      · have hm' : isMarkerLine l = false := by simpa using hm
        refine ⟨fun skip => ?_, ?_, ?_⟩
        · cases skip with
          | false =>
            rw [deleteGo_cons_plain_false hm']
            exact hasXAdj_cons_false (Or.inl hm') (ihAdj false)
          | true =>
            by_cases hh : isHeader (trimGo l) = true
            · rw [deleteGo_cons_skip_header hm' hh]
              exact hasXAdj_cons_false (Or.inl hm') (ihAdj false)
            · rw [deleteGo_cons_skip_drop hm' (by simpa using hh)]
              exact ihAdj true
        · by_cases hh : isHeader (trimGo l) = true
          · rw [deleteGo_cons_skip_header hm' hh]
            intro hq
            rw [header_no_name hh] at hq
            cases hq
          · rw [deleteGo_cons_skip_drop hm' (by simpa using hh)]
            exact ihHead
        · intro next' rs' he hne
          injection he with he1 he2
          rw [deleteGo_cons_plain_false hm']
          intro hq
          rw [← he1] at hne
          exact hne hq

theorem joinLines_splitLines (s : String) : joinLines (splitLines s) = s := by
  unfold joinLines splitLines
  rw [List.map_map, show (String.data ∘ String.mk) = id from funext fun _ => rfl,
    List.map_id, joinNLc_splitNLc]

theorem splitLines_joinLines (ls : List String) (hne : ls ≠ [])
    (h : ∀ l ∈ ls, '\n' ∉ l.data) : splitLines (joinLines ls) = ls := by
  unfold splitLines joinLines
  rw [show (String.mk (joinNLc (ls.map String.data))).data
      = joinNLc (ls.map String.data) from rfl]
  rw [splitNLc_joinNLc _ (by simpa using hne)
    (by
      intro cs hcs
      obtain ⟨l, hl, hl2⟩ := List.mem_map.mp hcs
      rw [← hl2]
      exact h l hl)]
  rw [List.map_map, show (String.mk ∘ String.data) = id from funext fun _ => rfl,
    List.map_id]

theorem mem_splitLines_no_newline {content : String} {l : String}
    (hl : l ∈ splitLines content) : '\n' ∉ l.data := by
  unfold splitLines at hl
  obtain ⟨cs, hcs, hl2⟩ := List.mem_map.mp hl
  rw [← hl2]
  exact mem_splitNLc_not_newline _ cs hcs

theorem deleteFrpProxy_noop {x content : String}
    (h : hasXAdj x (splitLines content) = false) :
    deleteFrpProxy x content = content := by
  unfold deleteFrpProxy
  rw [deleteGo_noop _ h, joinLines_splitLines]

theorem deleteFrpProxy_idem (x content : String) :
    deleteFrpProxy x (deleteFrpProxy x content) = deleteFrpProxy x content := by
  have hclean : hasXAdj x (deleteGo x false (splitLines content)) = false :=
    (deleteGo_out_clean x (splitLines content).length (splitLines content)
      le_rfl).1 false
  have hnl : ∀ l ∈ deleteGo x false (splitLines content), '\n' ∉ l.data := by
    intro l hl
    exact mem_splitLines_no_newline
      (List.Sublist.mem hl (deleteGo_sublist x (splitLines content) false))
  cases hO : deleteGo x false (splitLines content) with
  | nil =>
    have h1 : deleteFrpProxy x content = "" := by
      unfold deleteFrpProxy
      rw [hO]
      rfl
    rw [h1]
    rfl
  | cons o os =>
    rw [hO] at hclean hnl
    have h1 : deleteFrpProxy x content = joinLines (o :: os) := by
      unfold deleteFrpProxy
      rw [hO]
    rw [h1]
    unfold deleteFrpProxy
    rw [splitLines_joinLines (o :: os) (by simp) hnl, deleteGo_noop _ hclean]

/-- A proxy block as laid out in the registry file: its marker line, the
name line immediately following it, the captured name, and the block's
remaining lines (the block extends to the next bracket-delimited header,
per the delete routine's boundary rule). -/
structure PBlock where
  marker : String
  nameLine : String
  pname : String
  body : List String
  deriving DecidableEq, Repr

/-- A registry segment: a recognised proxy block, or an opaque span of
unrecognised lines preserved verbatim (spec §3, Registry). -/
inductive Seg where
  | proxy : PBlock → Seg
  | other : List String → Seg
  deriving DecidableEq, Repr

def PBlock.lines (b : PBlock) : List String := b.marker :: b.nameLine :: b.body

def Seg.lines : Seg → List String
  | .proxy b => b.lines
  | .other ls => ls

/-- The line sequence of a decomposed registry. -/
def segsLines (ss : List Seg) : List String := (ss.map Seg.lines).flatten

/-- Well-formedness of a proxy block: the marker line trims to
`[[proxies]]`, the following line's name field captures exactly `pname`,
and the body contains no bracket-delimited header (such a header would end
the block); no line contains a newline. -/
def PBlock.wf (b : PBlock) : Bool :=
  isMarkerLine b.marker && decide ('\n' ∉ b.marker.data) &&
  decide (matchKeyStr "name" b.nameLine = some b.pname) &&
  decide ('\n' ∉ b.nameLine.data) &&
  b.body.all (fun l => !(isHeader (trimGo l)) && decide ('\n' ∉ l.data))

/-- A segment behind which a skip (block deletion) necessarily ends: a
proxy block (its marker is re-examined) or an opaque span opening with a
bracket-delimited section header. -/
def Seg.closedHead : Seg → Bool
  | .proxy _ => true
  | .other [] => false
  | .other (l :: _) => isHeader (trimGo l)

def Seg.wf : Seg → Bool
  | .proxy b => b.wf
  | .other ls =>
    decide (ls ≠ []) && ls.all (fun l => !(isMarkerLine l) && decide ('\n' ∉ l.data))

/-- Well-formed registry decomposition: every segment is well formed and
every segment that immediately follows a proxy block is closed-headed
(otherwise its opening lines would belong to that block). -/
def segsWF : List Seg → Bool
  | [] => true
  | [s] => s.wf
  | s :: s2 :: rest =>
    s.wf && (match s with | .proxy _ => s2.closedHead | .other _ => true) &&
    segsWF (s2 :: rest)

def keepSeg (x : String) : Seg → Bool
  | .proxy b => !(b.pname == x)
  | .other _ => true

def isProxyNamed (x : String) : Seg → Bool
  | .proxy b => b.pname == x
  | .other _ => false

def headClosed : List Seg → Prop
  | [] => True
  | s :: _ => s.closedHead = true

theorem PBlock_wf_parts {b : PBlock} (h : b.wf = true) :
    isMarkerLine b.marker = true ∧ matchKeyStr "name" b.nameLine = some b.pname ∧
    (∀ l ∈ b.body, isHeader (trimGo l) = false) ∧
    '\n' ∉ b.marker.data ∧ '\n' ∉ b.nameLine.data ∧
    ∀ l ∈ b.body, '\n' ∉ l.data := by
  simp only [PBlock.wf, Bool.and_eq_true, decide_eq_true_eq, List.all_eq_true,
    Bool.not_eq_true'] at h
  exact ⟨h.1.1.1.1, h.1.1.2, fun l hl => (h.2 l hl).1, h.1.1.1.2, h.1.2,
    fun l hl => (h.2 l hl).2⟩

theorem segOther_wf_parts {ls : List String} (h : (Seg.other ls).wf = true) :
    ls ≠ [] ∧ (∀ l ∈ ls, isMarkerLine l = false) ∧ ∀ l ∈ ls, '\n' ∉ l.data := by
  simp only [Seg.wf, Bool.and_eq_true, decide_eq_true_eq, List.all_eq_true,
    Bool.not_eq_true'] at h
  exact ⟨h.1, fun l hl => (h.2 l hl).1, fun l hl => (h.2 l hl).2⟩

theorem segsWF_tail {s : Seg} {rest : List Seg} (h : segsWF (s :: rest) = true) :
    s.wf = true ∧ segsWF rest = true := by
  cases rest with
  | nil => exact ⟨h, rfl⟩
  | cons t ts =>
    simp only [segsWF, Bool.and_eq_true] at h
    exact ⟨h.1.1, h.2⟩

theorem segsWF_closed {b : PBlock} {t : Seg} {ts : List Seg}
    (h : segsWF (Seg.proxy b :: t :: ts) = true) : t.closedHead = true := by
  simp only [segsWF, Bool.and_eq_true] at h
  exact h.1.2

/-- The delete pass on a well-formed decomposed registry removes exactly the
lines of the proxy blocks named `x` and keeps every other line verbatim. -/
theorem deleteGo_segs (x : String) :
    ∀ ss : List Seg, segsWF ss = true →
      (deleteGo x false (segsLines ss) = segsLines (ss.filter (keepSeg x))) ∧
      (headClosed ss →
        deleteGo x true (segsLines ss) = segsLines (ss.filter (keepSeg x))) := by
  intro ss
  induction ss with
  | nil => exact fun _ => ⟨rfl, fun _ => rfl⟩
  | cons s rest ih =>
    intro hwf
    obtain ⟨hs, hrest⟩ := segsWF_tail hwf
    obtain ⟨ih1, ih2⟩ := ih hrest
    cases s with
    | proxy b =>
      obtain ⟨hmk, hnm, hbody, _, _, _⟩ := PBlock_wf_parts hs
      have hll : segsLines (Seg.proxy b :: rest)
          = b.marker :: b.nameLine :: (b.body ++ segsLines rest) := by
        simp [segsLines, Seg.lines, PBlock.lines]
      have hclosed : headClosed rest := by
        cases rest with
        | nil => trivial
        | cons t ts => exact segsWF_closed hwf
      by_cases hbx : b.pname = x
      · have hmatch : matchKeyStr "name" b.nameLine = some x := by rw [hnm, hbx]
        have hfilter : (Seg.proxy b :: rest).filter (keepSeg x)
            = rest.filter (keepSeg x) :=
          List.filter_cons_of_neg (by simp [keepSeg, hbx])
        have hnmh : isHeader (trimGo b.nameLine) = false := (matchName_not_header hnm).1
        have hnh : ∀ l ∈ (b.nameLine :: b.body), isHeader (trimGo l) = false := by
          intro l hl
          rcases List.mem_cons.1 hl with h | h
          · rw [h]; exact hnmh
          · exact hbody l h
        have hcommon : ∀ skip,
            deleteGo x skip (segsLines (Seg.proxy b :: rest))
              = segsLines ((Seg.proxy b :: rest).filter (keepSeg x)) := by
          intro skip
          rw [hll, deleteGo_cons_marker_skipX hmk hmatch,
            show b.nameLine :: (b.body ++ segsLines rest)
              = (b.nameLine :: b.body) ++ segsLines rest from rfl,
            deleteGo_skip_drop_all hnh, ih2 hclosed, hfilter]
        exact ⟨hcommon false, fun _ => hcommon true⟩
      · have hkeep : ∀ n', matchKeyStr "name" b.nameLine = some n' → n' ≠ x := by
          intro n' h' hq
          rw [hnm] at h'
          injection h' with he
          exact hbx (he.trans hq)
        have hfilter : (Seg.proxy b :: rest).filter (keepSeg x)
            = Seg.proxy b :: rest.filter (keepSeg x) :=
          List.filter_cons_of_pos (by simp [keepSeg, hbx])
        have hplain : ∀ l ∈ (b.nameLine :: b.body), isMarkerLine l = false := by
          intro l hl
          rcases List.mem_cons.1 hl with h | h
          · rw [h]; exact (matchName_not_header hnm).2
          · exact not_marker_of_not_header (hbody l h)
        have hcommon : ∀ skip,
            deleteGo x skip (segsLines (Seg.proxy b :: rest))
              = segsLines ((Seg.proxy b :: rest).filter (keepSeg x)) := by
          intro skip
          rw [hll, deleteGo_cons_marker_keep hmk _ _ hkeep,
            show b.nameLine :: (b.body ++ segsLines rest)
              = (b.nameLine :: b.body) ++ segsLines rest from rfl,
            deleteGo_keep_plain hplain, ih1, hfilter]
          simp [segsLines, Seg.lines, PBlock.lines]
        exact ⟨hcommon false, fun _ => hcommon true⟩
    | other ls =>
      obtain ⟨hne, hplain, _⟩ := segOther_wf_parts hs
      have hfilter : (Seg.other ls :: rest).filter (keepSeg x)
          = Seg.other ls :: rest.filter (keepSeg x) :=
        List.filter_cons_of_pos rfl
      have hll : segsLines (Seg.other ls :: rest) = ls ++ segsLines rest := by
        simp [segsLines, Seg.lines]
      constructor
      · rw [hll, deleteGo_keep_plain hplain, ih1, hfilter]
        simp [segsLines, Seg.lines]
      · intro hcl
        cases hlsc : ls with
        | nil => exact absurd hlsc hne
        | cons l0 tl =>
          have hcl2 : (Seg.other ls).closedHead = true := hcl
          rw [hlsc] at hcl2
          have hh : isHeader (trimGo l0) = true := hcl2
          rw [show segsLines (Seg.other (l0 :: tl) :: rest)
              = l0 :: (tl ++ segsLines rest) from by simp [segsLines, Seg.lines],
            deleteGo_cons_skip_header
              (hplain l0 (hlsc ▸ List.mem_cons_self l0 tl)) hh,
            deleteGo_keep_plain
              (fun l hl => hplain l (hlsc ▸ List.mem_cons_of_mem l0 hl)),
            ih1, List.filter_cons_of_pos rfl]
          simp [segsLines, Seg.lines]

theorem digitChar_digit {m : Nat} (h : m < 10) : isDigitG (Nat.digitChar m) = true := by
  interval_cases m <;> decide

theorem toDigitsCore_all : ∀ (fuel n : Nat) (acc : List Char),
    (∀ c ∈ acc, isDigitG c = true) →
    ∀ c ∈ Nat.toDigitsCore 10 fuel n acc, isDigitG c = true := by
  intro fuel
  induction fuel with
  | zero => intro n acc hacc c hc; exact hacc c hc
  | succ f ih =>
    intro n acc hacc c hc
    rw [Nat.toDigitsCore] at hc
    split at hc
    · rcases List.mem_cons.1 hc with h | h
      · rw [h]; exact digitChar_digit (Nat.mod_lt _ (by norm_num))
      · exact hacc c h
    · refine ih _ _ ?_ c hc
      intro d hd
      rcases List.mem_cons.1 hd with h | h
      · rw [h]; exact digitChar_digit (Nat.mod_lt _ (by norm_num))
      · exact hacc d h

theorem toDigitsCore_ne_nil_of_acc : ∀ (fuel n : Nat) (acc : List Char),
    acc ≠ [] → Nat.toDigitsCore 10 fuel n acc ≠ [] := by
  intro fuel
  induction fuel with
  | zero => intro n acc hacc; exact hacc
  | succ f ih =>
    intro n acc hacc
    rw [Nat.toDigitsCore]
    split
    · simp
    · exact ih _ _ (by simp)

theorem toDigitsCore_ne_nil (f n : Nat) (acc : List Char) :
    Nat.toDigitsCore 10 (f + 1) n acc ≠ [] := by
  rw [Nat.toDigitsCore]
  split
  · simp
  · exact toDigitsCore_ne_nil_of_acc _ _ _ (by simp)

/-- `fmt.Sprintf("%d", n)` for a natural produces a non-empty digit run. -/
theorem natRepr_isDigits (n : Nat) : isDigits (Nat.repr n) = true := by
  have hd : (Nat.repr n).data = Nat.toDigitsCore 10 (n + 1) n [] := rfl
  simp only [isDigits, Bool.and_eq_true, decide_eq_true_eq, List.all_eq_true, hd]
  exact ⟨toDigitsCore_ne_nil n n [], toDigitsCore_all (n + 1) n [] (by simp)⟩

theorem segsLines_no_newline {ss : List Seg} (h : segsWF ss = true) :
    ∀ l ∈ segsLines ss, '\n' ∉ l.data := by
  induction ss with
  | nil => intro l hl; cases hl
  | cons s rest ih =>
    obtain ⟨hs, hrest⟩ := segsWF_tail h
    intro l hl
    have hl2 : l ∈ s.lines ∨ l ∈ segsLines rest := by
      have : segsLines (s :: rest) = s.lines ++ segsLines rest := by
        simp [segsLines]
      rw [this] at hl
      exact List.mem_append.mp hl
    rcases hl2 with hm | hm
    · cases s with
      | proxy b =>
        obtain ⟨_, _, _, hnl1, hnl2, hnl3⟩ := PBlock_wf_parts hs
        rcases List.mem_cons.1 hm with h1 | h1
        · rw [h1]; exact hnl1
        · rcases List.mem_cons.1 h1 with h2 | h2
          · rw [h2]; exact hnl2
          · exact hnl3 l h2
      | other ls =>
        obtain ⟨_, _, hnl⟩ := segOther_wf_parts hs
        exact hnl l hm
    · exact ih hrest l hm

theorem segsLines_cons_ne_nil {s : Seg} {rest : List Seg}
    (h : segsWF (s :: rest) = true) : segsLines (s :: rest) ≠ [] := by
  have hs := (segsWF_tail h).1
  have : segsLines (s :: rest) = s.lines ++ segsLines rest := by simp [segsLines]
  rw [this]
  cases s with
  | proxy b => simp [Seg.lines, PBlock.lines]
  | other ls =>
    obtain ⟨hne, _, _⟩ := segOther_wf_parts hs
    show ls ++ segsLines rest ≠ []
    intro hfalse
    exact hne (List.append_eq_nil.mp hfalse).1

/-- `deleteFrpProxy` on a well-formed decomposed registry: the result is the
registry re-rendered without the blocks named `x`. -/
theorem deleteFrpProxy_segs (x : String) (ss : List Seg) (h : segsWF ss = true) :
    deleteFrpProxy x (joinLines (segsLines ss))
      = joinLines (segsLines (ss.filter (keepSeg x))) := by
  cases hss : ss with
  | nil => rfl
  | cons s rest =>
    rw [← hss]
    unfold deleteFrpProxy
    rw [splitLines_joinLines (segsLines ss) (hss ▸ segsLines_cons_ne_nil (hss ▸ h))
      (segsLines_no_newline h), (deleteGo_segs x ss h).1]

theorem serializeRecs_append (ps : List FrpProxy) (p : FrpProxy) :
    serializeRecs (ps ++ [p]) = serializeRecs ps ++ renderProxy p := by
  induction ps with
  | nil =>
    show renderProxy p ++ serializeRecs [] = serializeRecs [] ++ renderProxy p
    apply String.ext
    simp [String.data_append, serializeRecs]
  | cons q qs ih =>
    show renderProxy q ++ serializeRecs (qs ++ [p])
        = (renderProxy q ++ serializeRecs qs) ++ renderProxy p
    rw [ih, String.append_assoc]

/-- Round-trip of the writers and the parser: `getFrpProxies` recovers a
serialized well-formed record sequence exactly. -/
theorem getFrpProxies_serialize (ps : List FrpProxy)
    (hwf : ∀ p ∈ ps, wfRecord p = true) :
    getFrpProxies (serializeRecs ps) = ps := by
  rw [getFrpProxies_eq_split, parseGo_serialize ps hwf none]
  rfl

/-- One observable OS side effect of the process-management code paths
(main.go lines 219-246, 469-607). -/
inductive Eff where
  | tasklistQ
  | wmicQ
  | taskkill
  | settle
  | spawn
  | netshAdd
  | regAppend
  deriving DecidableEq, Repr

/-- A snapshot of the answers the OS would give to one round of queries by
the process-management functions, plus the success of each side-effecting
step. -/
structure OSState where
  tasklistErr : Bool
  tasklistOut : String
  wmicErr : Bool
  wmicOut : String
  findErr : Bool
  killOk : Bool
  logOk : Bool
  spawnOk : Bool
  deriving DecidableEq, Repr

/-- `strings.Contains`. -/
def containsStr (s sub : String) : Bool := decide (sub.data <:+: s.data)

def digitsToNat (ds : List Char) : Nat :=
  ds.foldl (fun a c => 10 * a + (c.toNat - 48)) 0

/-- `fmt.Sscanf(pidStr, "%d", &pid)` (line 507): parse an optional sign and
a leading digit run; on failure the target keeps its zero value 0. -/
def sscanfInt (s : String) : Int :=
  match s.data with
  | '-' :: cs =>
    let ds := cs.takeWhile isDigitG
    if ds.isEmpty then 0 else -(digitsToNat ds : Int)
  | '+' :: cs =>
    let ds := cs.takeWhile isDigitG
    if ds.isEmpty then 0 else (digitsToNat ds : Int)
  | cs =>
    let ds := cs.takeWhile isDigitG
    if ds.isEmpty then 0 else (digitsToNat ds : Int)

/-- The error cases of the supervisor functions (each `fmt.Errorf` site). -/
inductive SupErr where
  | findFailed
  | stopFailed
  | alreadyRunning
  | checkFailed
  | logFailed
  | startFailed
  deriving DecidableEq, Repr

/-- The wmic half of `getFrpcProcess` (lines 489-514): split the wmic
output on newlines; fewer than two lines, or a second line that trims to
empty, yields `none`; otherwise the PID parsed from the trimmed second
line (an `os.FindProcess` failure propagates as an error). -/
def wmicStep (os : OSState) : Except Unit (Option Int) :=
  if os.wmicErr then .error ()
  else
    let lines := splitLines os.wmicOut
    if lines.length < 2 then .ok none
    else
      let pidStr := trimGo (lines.getD 1 "")
      if pidStr = "" then .ok none
      else if os.findErr then .error ()
      else .ok (some (sscanfInt pidStr))

/-- `getFrpcProcess` (lines 469-515, Windows path): a tasklist liveness
probe, short-circuiting to `none` when the image name is absent from the
output; otherwise the wmic PID query.  The second component is the trace of
OS commands run. -/
def getFrpcProcess (os : OSState) : Except Unit (Option Int) × List Eff :=
  if os.tasklistErr then (.error (), [.tasklistQ])
  else if ¬ containsStr os.tasklistOut "frpc.exe" then (.ok none, [.tasklistQ])
  else (wmicStep os, [.tasklistQ, .wmicQ])

/-- `stopFrpc` (lines 518-542): no-op success when the locator reports no
process; otherwise a forced `taskkill` by image name. -/
def stopFrpc (os : OSState) : Except SupErr Unit × List Eff :=
  match getFrpcProcess os with
  | (.error _, es) => (.error .findFailed, es)
  | (.ok none, es) => (.ok (), es)
  | (.ok (some _), es) =>
    if os.killOk then (.ok (), es ++ [.taskkill])
    else (.error .stopFailed, es ++ [.taskkill])

/-- `startFrpc` (lines 545-587): `AlreadyRunning` when the locator reports a
live process; otherwise open the log file and spawn the binary. -/
def startFrpc (os : OSState) : Except SupErr Unit × List Eff :=
  match getFrpcProcess os with
  | (.error _, es) => (.error .checkFailed, es)
  | (.ok (some _), es) => (.error .alreadyRunning, es)
  | (.ok none, es) =>
    if ¬ os.logOk then (.error .logFailed, es)
    else if os.spawnOk then (.ok (), es ++ [.spawn])
    else (.error .startFailed, es ++ [.spawn])

/-- `restartFrpc` (lines 590-607): stop (result logged and discarded), a
fixed settle delay, then start, whose result is returned.  `os1` and `os2`
are the OS snapshots seen by the stop and the start respectively. -/
def restartFrpc (os1 os2 : OSState) : Except SupErr Unit × List Eff :=
  let s := stopFrpc os1
  let t := startFrpc os2
  (t.1, s.2 ++ .settle :: t.2)

/-- Environment of one `handleAddRule` call: whether the netsh add and the
registry-file open succeed, and the OS snapshots the restart sees. -/
structure AddEnv where
  netshOk : Bool
  openOk : Bool
  os1 : OSState
  os2 : OSState
  deriving Repr

/-- `handleAddRule` (lines 219-246): netsh rule first (failure aborts with
an error response and no further effect), then the registry append (failure
aborts likewise), then the frpc restart whose failure is only logged.
Returns (HTTP success?, new registry content, effect trace). -/
def handleAddRule (env : AddEnv) (content : String) (req : AddRuleRequest) :
    Bool × String × List Eff :=
  if ¬ env.netshOk then (false, content, [.netshAdd])
  else if ¬ env.openOk then (false, content, [.netshAdd])
  else
    let r := restartFrpc env.os1 env.os2
    (true, appendToFrpc content req, .netshAdd :: .regAppend :: r.2)

theorem getFrpcProcess_trace (os : OSState) :
    (getFrpcProcess os).2 = [.tasklistQ] ∨
    (getFrpcProcess os).2 = [.tasklistQ, .wmicQ] := by
  unfold getFrpcProcess
  split_ifs <;> simp

/-- For every registry content, the parser returns exactly as many records
as there are `[[proxies]]` marker lines. -/
theorem getFrpProxies_length_markers (content : String) :
    (getFrpProxies content).length = (splitLines content).countP isMarkerLine := by
  rw [getFrpProxies_eq_split, parseGo_length (splitLines content) none]
  simp

/-- C1: registry mutations are frame-preserving.  Append (an `O_APPEND`
write) leaves every pre-existing byte of the file unchanged, and delete on a
well-formed decomposed registry re-renders exactly the segments that are not
proxy blocks named `x` — every line outside the deleted entry, including
whitespace and non-proxy bracket-delimited section markers, round-trips
verbatim. -/
theorem claim_C1_mutation_frame (content : String) (req : AddRuleRequest)
    (x : String) (ss : List Seg) (hwf : segsWF ss = true) :
    (appendToFrpc content req).data.take content.data.length = content.data ∧
    deleteFrpProxy x (joinLines (segsLines ss))
      = joinLines (segsLines (ss.filter (keepSeg x))) := by
  refine ⟨?_, deleteFrpProxy_segs x ss hwf⟩
  show (content ++ renderProxy (reqProxy req)).data.take content.data.length
      = content.data
  rw [String.data_append]
  exact List.take_left _ _

/-- A sample well-formed registry decomposition with two blocks named `dup`,
one named `dupX`, and opaque sections around them. -/
def segsEx1 : List Seg :=
  [Seg.other ["[common]", "server = \"1.2.3.4\""],
   Seg.proxy ⟨"[[proxies]]", "name = \"dup\"", "dup", ["type = \"tcp\""]⟩,
   Seg.proxy ⟨"[[proxies]]", "name = \"dupX\"", "dupX", []⟩,
   Seg.proxy ⟨"[[proxies]]", "name = \"dup\"", "dup", []⟩,
   Seg.other ["[web]", "port = 80"]]

def reqEx : AddRuleRequest := ⟨"9000", "10.0.0.9", "443", "8443", "bob"⟩

theorem claim_C1_witness :
    (appendToFrpc "x = 1\n" reqEx).data.take ("x = 1\n" : String).data.length
      = ("x = 1\n" : String).data ∧
    deleteFrpProxy "dup" (joinLines (segsLines segsEx1))
      = joinLines (segsLines (segsEx1.filter (keepSeg "dup"))) :=
  claim_C1_mutation_frame "x = 1\n" reqEx "dup" segsEx1 (by decide)

/-- C2: delete is idempotent and name-scoped.  When no block named `x`
exists (no marker line is followed by a name line capturing `x`) the file is
returned byte-identical; applying delete twice equals applying it once (for
every content whatsoever); and on a well-formed registry the deletion
removes exactly the blocks whose name field equals `x` — blocks whose names
merely contain `x` survive untouched. -/
theorem claim_C2_delete_idempotent_name_scoped (x content : String)
    (ss : List Seg) (hwf : segsWF ss = true) :
    (hasXAdj x (splitLines content) = false → deleteFrpProxy x content = content) ∧
    deleteFrpProxy x (deleteFrpProxy x content) = deleteFrpProxy x content ∧
    deleteFrpProxy x (joinLines (segsLines ss))
      = joinLines (segsLines (ss.filter (keepSeg x))) :=
  ⟨fun h => deleteFrpProxy_noop h, deleteFrpProxy_idem x content,
   deleteFrpProxy_segs x ss hwf⟩

def contentEx2 : String := "[[proxies]]\nname = \"keeper\"\ntype = \"tcp\"\n"

theorem claim_C2_witness :
    deleteFrpProxy "dup" contentEx2 = contentEx2 ∧
    deleteFrpProxy "dup" (deleteFrpProxy "dup" contentEx2)
      = deleteFrpProxy "dup" contentEx2 ∧
    deleteFrpProxy "dup" (joinLines (segsLines segsEx1))
      = joinLines (segsLines (segsEx1.filter (keepSeg "dup"))) := by
  obtain ⟨h1, h2, h3⟩ :=
    claim_C2_delete_idempotent_name_scoped "dup" contentEx2 segsEx1 (by decide)
  exact ⟨h1 (by decide), h2, h3⟩

/-- C10: a single delete call removes every block whose name equals the
target, not only the first: the surviving rendition contains no proxy block
named `x` at all, while all other segments are kept. -/
theorem claim_C10_delete_all_matching (x : String) (ss : List Seg)
    (hwf : segsWF ss = true) :
    deleteFrpProxy x (joinLines (segsLines ss))
      = joinLines (segsLines (ss.filter (keepSeg x))) ∧
    (ss.filter (keepSeg x)).countP (isProxyNamed x) = 0 := by
  refine ⟨deleteFrpProxy_segs x ss hwf, ?_⟩
  rw [List.countP_eq_zero]
  intro s hs
  obtain ⟨_, hkeep⟩ := List.mem_filter.mp hs
  cases s with
  | proxy b =>
    simp only [keepSeg, Bool.not_eq_true'] at hkeep
    simp [isProxyNamed, hkeep]
  | other ls => simp [isProxyNamed]

theorem claim_C10_witness :
    deleteFrpProxy "dup" (joinLines (segsLines segsEx1))
      = joinLines (segsLines (segsEx1.filter (keepSeg "dup"))) ∧
    (segsEx1.filter (keepSeg "dup")).countP (isProxyNamed "dup") = 0 :=
  claim_C10_delete_all_matching "dup" segsEx1 (by decide)

/-- C8: round-trip — serializing a well-formed sequence of records with
distinct names into an empty registry (appending each block in order) and
parsing the result yields back exactly the same records. -/
theorem claim_C8_serialize_parse_roundtrip (ps : List FrpProxy)
    (hwf : ∀ p ∈ ps, wfRecord p = true)
    (_hdistinct : ps.Pairwise (fun a b => a.name ≠ b.name)) :
    getFrpProxies (serializeRecs ps) = ps :=
  getFrpProxies_serialize ps hwf

def psEx : List FrpProxy :=
  [⟨"alice-manager-10.0.0.5-80", "tcp", "127.0.0.1", "80", "8080"⟩,
   ⟨"bob-manager-10.0.0.9-443", "tcp", "127.0.0.1", "9000", "8443"⟩]

theorem claim_C8_witness : getFrpProxies (serializeRecs psEx) = psEx :=
  claim_C8_serialize_parse_roundtrip psEx (by decide) (by decide)

/-- C6: the block appended for an add-rule request under identity
`req.name` carries the composite name
`{name}-manager-{connectAddr}-{connectPort}`, type `"tcp"`, localIP
`"127.0.0.1"`, localPort equal to the request's listenPort and remotePort
whatever the request specified: parsing the file after the append yields
the previous records plus exactly that record. -/
theorem claim_C6_append_rule_block (ps : List FrpProxy) (req : AddRuleRequest)
    (hwf : ∀ p ∈ ps, wfRecord p = true)
    (h1 : '\n' ∉ req.name.data) (h2 : '\n' ∉ req.connectAddr.data)
    (h3 : '\n' ∉ req.connectPort.data)
    (h4 : isDigits req.listenPort = true) (h5 : isDigits req.remotePort = true) :
    getFrpProxies (appendToFrpc (serializeRecs ps) req)
      = ps ++ [{ name := req.name ++ "-manager-" ++ req.connectAddr ++ "-"
                   ++ req.connectPort,
                 type := "tcp", localIP := "127.0.0.1",
                 localPort := req.listenPort,
                 remotePort := req.remotePort }] := by
  have happ : appendToFrpc (serializeRecs ps) req
      = serializeRecs (ps ++ [reqProxy req]) := by
    rw [serializeRecs_append]
    rfl
  have hname : noNL (req.name ++ "-manager-" ++ req.connectAddr ++ "-"
      ++ req.connectPort) = true := by
    simp only [noNL, decide_eq_true_eq, String.data_append, List.mem_append, not_or]
    exact ⟨⟨⟨⟨h1, by decide⟩, h2⟩, by decide⟩, h3⟩
  have hwf2 : ∀ p ∈ ps ++ [reqProxy req], wfRecord p = true := by
    intro p hp
    rcases List.mem_append.mp hp with h | h
    · exact hwf p h
    · rw [List.mem_singleton.mp h]
      simp only [wfRecord, reqProxy, Bool.and_eq_true]
      exact ⟨⟨⟨⟨hname, by decide⟩, by decide⟩, h4⟩, h5⟩
  rw [happ, getFrpProxies_serialize _ hwf2]
  rfl

theorem claim_C6_witness :
    getFrpProxies (appendToFrpc (serializeRecs []) reqEx)
      = [] ++ [{ name := "bob" ++ "-manager-" ++ "10.0.0.9" ++ "-" ++ "443",
                 type := "tcp", localIP := "127.0.0.1",
                 localPort := "9000", remotePort := "8443" }] :=
  claim_C6_append_rule_block [] reqEx (by decide) (by decide) (by decide)
    (by decide) (by decide) (by decide)

/-- C4: supervisor state machine.  `stopFrpc` when the locator reports no
live process returns success without issuing the `taskkill` termination
command; `startFrpc` when a live process exists returns the AlreadyRunning
error without spawning; `restartFrpc` always calls `startFrpc` exactly once
and returns its result, no matter how the preceding stop fared (its trace is
the stop trace, the settle delay, then the start trace). -/
theorem claim_C4_supervisor_state_machine (os os1 os2 : OSState) :
    ((getFrpcProcess os).1 = .ok none →
      stopFrpc os = (.ok (), (getFrpcProcess os).2) ∧
      Eff.taskkill ∉ (stopFrpc os).2) ∧
    (∀ pid : Int, (getFrpcProcess os).1 = .ok (some pid) →
      (startFrpc os).1 = .error .alreadyRunning ∧
      Eff.spawn ∉ (startFrpc os).2) ∧
    restartFrpc os1 os2
      = ((startFrpc os2).1, (stopFrpc os1).2 ++ .settle :: (startFrpc os2).2) := by
  have htrace := getFrpcProcess_trace os
  refine ⟨?_, ?_, rfl⟩
  · intro h
    rcases hG : getFrpcProcess os with ⟨r, es⟩
    rw [hG] at h htrace
    have hr : r = Except.ok none := h
    subst hr
    have hstop : stopFrpc os = (Except.ok (), es) := by
      simp [stopFrpc, hG]
    refine ⟨by rw [hstop], ?_⟩
    rw [hstop]
    show Eff.taskkill ∉ es
    rcases htrace with h2 | h2
    · have h2b : es = [Eff.tasklistQ] := h2
      rw [h2b]
      decide
    · have h2b : es = [Eff.tasklistQ, Eff.wmicQ] := h2
      rw [h2b]
      decide
  · intro pid h
    rcases hG : getFrpcProcess os with ⟨r, es⟩
    rw [hG] at h htrace
    have hr : r = Except.ok (some pid) := h
    subst hr
    have hstart : startFrpc os = (Except.error SupErr.alreadyRunning, es) := by
      simp [startFrpc, hG]
    refine ⟨by rw [hstart], ?_⟩
    rw [hstart]
    show Eff.spawn ∉ es
    rcases htrace with h2 | h2
    · have h2b : es = [Eff.tasklistQ] := h2
      rw [h2b]
      decide
    · have h2b : es = [Eff.tasklistQ, Eff.wmicQ] := h2
      rw [h2b]
      decide

def osDown : OSState := ⟨false, "", false, "", false, true, true, true⟩

def osUp : OSState :=
  ⟨false, "\"frpc.exe\",\"123\"", false, "ProcessId\n123\n", false, true, true, true⟩

theorem claim_C4_witness :
    (stopFrpc osDown = (.ok (), (getFrpcProcess osDown).2) ∧
      Eff.taskkill ∉ (stopFrpc osDown).2) ∧
    ((startFrpc osUp).1 = .error .alreadyRunning ∧
      Eff.spawn ∉ (startFrpc osUp).2) ∧
    restartFrpc osDown osUp
      = ((startFrpc osUp).1,
          (stopFrpc osDown).2 ++ .settle :: (startFrpc osUp).2) := by
  obtain ⟨h1, h2, h3⟩ := claim_C4_supervisor_state_machine osDown osDown osUp
  exact ⟨h1 (by rfl),
    (claim_C4_supervisor_state_machine osUp osDown osUp).2.1 123 (by rfl), h3⟩

/-- C7: the locator short-circuits to `none` — running only the tasklist
probe, not the wmic PID query — when the liveness probe's output does not
mention the image name; and when the probe reports alive but the wmic
output has no second line or its second line trims to empty (no parsable
PID), it returns `none` rather than an error. -/
theorem claim_C7_locator_short_circuit (os : OSState) :
    (os.tasklistErr = false → containsStr os.tasklistOut "frpc.exe" = false →
      getFrpcProcess os = (.ok none, [.tasklistQ])) ∧
    (os.tasklistErr = false → containsStr os.tasklistOut "frpc.exe" = true →
      os.wmicErr = false →
      ((splitLines os.wmicOut).length < 2 ∨
        trimGo ((splitLines os.wmicOut).getD 1 "") = "") →
      (getFrpcProcess os).1 = .ok none) := by
  constructor
  · intro h1 h2
    simp [getFrpcProcess, h1, h2]
  · intro h1 h2 h3 h4
    have hred : (getFrpcProcess os).1 = wmicStep os := by
      simp [getFrpcProcess, h1, h2]
    rw [hred]
    rcases h4 with h4 | h4
    · simp [wmicStep, h3, h4]
    · by_cases hLen : (splitLines os.wmicOut).length < 2
      · simp [wmicStep, h3, hLen]
      · simp only [List.getD_eq_getElem?_getD] at h4
        simp [wmicStep, h3, hLen, h4]

def osNoPid : OSState :=
  ⟨false, "\"frpc.exe\",\"1\"", false, "ProcessId", false, true, true, true⟩

theorem claim_C7_witness :
    getFrpcProcess osDown = (.ok none, [Eff.tasklistQ]) ∧
    (getFrpcProcess osNoPid).1 = .ok none :=
  ⟨(claim_C7_locator_short_circuit osDown).1 (by decide) (by decide),
   (claim_C7_locator_short_circuit osNoPid).2 (by decide) (by decide)
     (by decide) (by decide)⟩

/-- C9: in the add-rule flow the side effects are strictly ordered — OS
rule first, then registry append, then restart.  If the netsh step fails,
the handler answers with an error, the registry content is returned
unchanged, and neither the append nor any restart effect happens. -/
theorem claim_C9_add_rule_ordering (env : AddEnv) (content : String)
    (req : AddRuleRequest) :
    (env.netshOk = false →
      handleAddRule env content req = (false, content, [.netshAdd])) ∧
    (env.netshOk = true → env.openOk = true →
      handleAddRule env content req
        = (true, appendToFrpc content req,
            .netshAdd :: .regAppend :: (restartFrpc env.os1 env.os2).2)) := by
  constructor
  · intro h
    simp [handleAddRule, h]
  · intro h1 h2
    simp [handleAddRule, h1, h2]

def envFail : AddEnv := ⟨false, true, osDown, osUp⟩

def envOk : AddEnv := ⟨true, true, osDown, osUp⟩

theorem claim_C9_witness :
    handleAddRule envFail "seed" reqEx = (false, "seed", [Eff.netshAdd]) ∧
    handleAddRule envOk "seed" reqEx
      = (true, appendToFrpc "seed" reqEx,
          Eff.netshAdd :: Eff.regAppend :: (restartFrpc envOk.os1 envOk.os2).2) :=
  ⟨(claim_C9_add_rule_ordering envFail "seed" reqEx).1 rfl,
   (claim_C9_add_rule_ordering envOk "seed" reqEx).2 rfl rfl⟩

/-- C5: self-registration is idempotent.  Starting from a registry whose
records do not carry the canonical name `config.Name + "-" +
config.WebUIProxyName`, one run appends exactly one entry with that name;
a second run with the same configuration performs no write; and whenever an
entry with the canonical name already exists, the routine returns the
content unchanged. -/
theorem claim_C5_registration_idempotent (cfg : ConfigG) (ps : List FrpProxy)
    (hwf : ∀ p ∈ ps, wfRecord p = true)
    (hn1 : '\n' ∉ cfg.name.data) (hn2 : '\n' ∉ cfg.webUIProxyName.data)
    (habs : ∀ p ∈ ps, p.name ≠ cfg.name ++ "-" ++ cfg.webUIProxyName) :
    ((getFrpProxies (registerWebUIToFrpc cfg (serializeRecs ps))).countP
        (fun p => p.name == cfg.name ++ "-" ++ cfg.webUIProxyName) = 1) ∧
    registerWebUIToFrpc cfg (registerWebUIToFrpc cfg (serializeRecs ps))
      = registerWebUIToFrpc cfg (serializeRecs ps) ∧
    (∀ content,
      (getFrpProxies content).any
        (fun p => p.name == cfg.name ++ "-" ++ cfg.webUIProxyName) = true →
      registerWebUIToFrpc cfg content = content) := by
  have hthird : ∀ content,
      (getFrpProxies content).any
        (fun p => p.name == cfg.name ++ "-" ++ cfg.webUIProxyName) = true →
      registerWebUIToFrpc cfg content = content := by
    intro content h
    unfold registerWebUIToFrpc
    rw [if_pos h]
  have hps : getFrpProxies (serializeRecs ps) = ps := getFrpProxies_serialize ps hwf
  have hany : (ps.any
      (fun p => p.name == cfg.name ++ "-" ++ cfg.webUIProxyName)) = false := by
    rw [List.any_eq_false]
    intro p hp
    simp [habs p hp]
  have hreg1 : registerWebUIToFrpc cfg (serializeRecs ps)
      = serializeRecs (ps ++ [webProxy cfg]) := by
    unfold registerWebUIToFrpc
    rw [hps, if_neg (by simp [hany]), serializeRecs_append]
  have hwfweb : wfRecord (webProxy cfg) = true := by
    simp only [wfRecord, webProxy, Bool.and_eq_true]
    refine ⟨⟨⟨⟨?_, by decide⟩, by decide⟩, natRepr_isDigits _⟩, natRepr_isDigits _⟩
    simp only [noNL, decide_eq_true_eq, String.data_append, List.mem_append, not_or]
    exact ⟨⟨hn1, by decide⟩, hn2⟩
  have hwf2 : ∀ p ∈ ps ++ [webProxy cfg], wfRecord p = true := by
    intro p hp
    rcases List.mem_append.mp hp with h | h
    · exact hwf p h
    · rw [List.mem_singleton.mp h]
      exact hwfweb
  have hps2 : getFrpProxies (serializeRecs (ps ++ [webProxy cfg]))
      = ps ++ [webProxy cfg] := getFrpProxies_serialize _ hwf2
  refine ⟨?_, ?_, hthird⟩
  · rw [hreg1, hps2, List.countP_append]
    have hzero : ps.countP
        (fun p => p.name == cfg.name ++ "-" ++ cfg.webUIProxyName) = 0 := by
      rw [List.countP_eq_zero]
      intro p hp
      simp [habs p hp]
    rw [hzero]
    simp [List.countP_cons, webProxy]
  · rw [hreg1]
    apply hthird
    rw [hps2]
    simp [webProxy]

def cfgEx : ConfigG := ⟨8080, "yz", "web", 18080⟩

def contentC5 : String :=
  "\n[[proxies]]\nname = \"yz-web\"\ntype = \"tcp\"\nlocalIP = \"127.0.0.1\"\nlocalPort = 8080\nremotePort = 18080\n"

theorem claim_C5_witness :
    ((getFrpProxies (registerWebUIToFrpc cfgEx (serializeRecs []))).countP
        (fun p => p.name == cfgEx.name ++ "-" ++ cfgEx.webUIProxyName) = 1) ∧
    registerWebUIToFrpc cfgEx (registerWebUIToFrpc cfgEx (serializeRecs []))
      = registerWebUIToFrpc cfgEx (serializeRecs []) ∧
    registerWebUIToFrpc cfgEx contentC5 = contentC5 := by
  obtain ⟨h1, h2, h3⟩ := claim_C5_registration_idempotent cfgEx []
    (by decide) (by decide) (by decide) (by decide)
  exact ⟨h1, h2, h3 contentC5 (by decide)⟩

/-- A raw proxy block for the interleaved-parse statement: one marker line
and the block's following lines up to (exclusive) the next marker or end of
input. -/
structure RawBlock where
  markerLine : String
  body : List String
  deriving DecidableEq, Repr

/-- The marker line trims to `[[proxies]]` and the body contains no further
marker line (so the block is closed exactly by the next marker or by end of
input).  The body is otherwise arbitrary — malformed blocks are allowed. -/
def rawBlockWF (b : RawBlock) : Bool :=
  isMarkerLine b.markerLine && b.body.all (fun l => !(isMarkerLine l))

/-- The record a block denotes: the Go zero record `&FrpProxy{}` updated by
each of the block's own lines in order — fields that no line of the block
matches stay at their zero value. -/
def recordOfBlock (b : RawBlock) : FrpProxy :=
  b.body.foldl (fun p l => applyField p (trimGo l)) emptyProxy

theorem not_trim_marker {l : String} (h : isMarkerLine l = false) :
    ¬ trimGo l = "[[proxies]]" := by
  simpa [isMarkerLine] using h

theorem parseGo_skip_pre {pre : List String}
    (h : ∀ l ∈ pre, isMarkerLine l = false) (rest : List String) :
    parseGo none (pre ++ rest) = parseGo none rest := by
  induction pre with
  | nil => rfl
  | cons l t ih =>
    rw [List.cons_append,
      parseGo_cons_none (not_trim_marker (h l (List.mem_cons_self l t))),
      ih (fun m hm => h m (List.mem_cons_of_mem l hm))]

theorem parseGo_fold_body {body : List String}
    (h : ∀ l ∈ body, isMarkerLine l = false) (p : FrpProxy) (rest : List String) :
    parseGo (some p) (body ++ rest)
      = parseGo (some (body.foldl (fun q l => applyField q (trimGo l)) p)) rest := by
  induction body generalizing p with
  | nil => rfl
  | cons l t ih =>
    rw [List.cons_append,
      parseGo_cons_some p (not_trim_marker (h l (List.mem_cons_self l t))),
      ih (fun m hm => h m (List.mem_cons_of_mem l hm)), List.foldl_cons]

/-- The scan loop on a marker-delimited decomposition: one record per block,
in block order, each obtained from the zero record by that block's own
lines; a block's record joins the result only once the block is closed by
the next marker or end of input (the fold happens between the markers). -/
theorem parseGo_blocks (bs : List RawBlock)
    (h : ∀ b ∈ bs, rawBlockWF b = true) :
    ∀ cur : Option FrpProxy,
      parseGo cur ((bs.map (fun b => b.markerLine :: b.body)).flatten)
        = cur.toList ++ bs.map recordOfBlock := by
  induction bs with
  | nil => intro cur; cases cur <;> simp [parseGo]
  | cons b bs ih =>
    intro cur
    have hb := h b (List.mem_cons_self b bs)
    simp only [rawBlockWF, Bool.and_eq_true, List.all_eq_true,
      Bool.not_eq_true'] at hb
    obtain ⟨hmk, hbody⟩ := hb
    have hmk2 : trimGo b.markerLine = "[[proxies]]" := by
      simpa [isMarkerLine] using hmk
    show parseGo cur ((b.markerLine :: b.body) ++ (bs.map _).flatten) = _
    rw [List.cons_append, parseGo_cons_marker cur hmk2,
      parseGo_fold_body hbody emptyProxy]
    show cur.toList ++ parseGo (some (recordOfBlock b)) _ = _
    rw [ih (fun q hq => h q (List.mem_cons_of_mem b hq)) (some (recordOfBlock b))]
    simp

/-- C3: for every registry content with N proxy-block markers interleaved
with arbitrary non-proxy lines, the parser returns exactly N records
(first conjunct, for every content whatsoever), and — on any decomposition
of the scanned lines into a marker-free prefix and N marker-opened blocks —
the result is exactly the blocks' records in file order, each computed from
the zero record by its own block's lines alone (so malformed blocks never
fail: unmatched fields simply stay at their zero value) and flushed only
when the block is closed by the next marker or end of input.  Parsing
itself is a total function: only the file-open step of `getFrpProxies` can
fail. -/
theorem claim_C3_parse_structure :
    (∀ content : String,
      (getFrpProxies content).length = (splitLines content).countP isMarkerLine) ∧
    (∀ (content : String) (pre : List String) (bs : List RawBlock),
      (∀ l ∈ pre, isMarkerLine l = false) →
      (∀ b ∈ bs, rawBlockWF b = true) →
      scanLines content = pre ++ (bs.map (fun b => b.markerLine :: b.body)).flatten →
      getFrpProxies content = bs.map recordOfBlock) := by
  refine ⟨getFrpProxies_length_markers, ?_⟩
  intro content pre bs hpre hbs hsplit
  show parseGo none (scanLines content) = _
  rw [hsplit, parseGo_skip_pre hpre, parseGo_blocks bs hbs none]
  rfl

def preC3 : List String := ["# managed by portproxy", "stuff = 1"]

def rawEx : List RawBlock :=
  [⟨"[[proxies]]", ["name = \"a\"", "junk here"]⟩,
   ⟨"[[proxies]]", ["localPort = 7"]⟩]

def contentC3 : String :=
  "# managed by portproxy\nstuff = 1\n[[proxies]]\nname = \"a\"\njunk here\n[[proxies]]\nlocalPort = 7"

theorem claim_C3_witness :
    (getFrpProxies contentC3).length = (splitLines contentC3).countP isMarkerLine ∧
    getFrpProxies contentC3 = rawEx.map recordOfBlock ∧
    rawEx.map recordOfBlock
      = [⟨"a", "", "", "", ""⟩, ⟨"", "", "", "7", ""⟩] := by
  obtain ⟨h1, h2⟩ := claim_C3_parse_structure
  exact ⟨h1 contentC3,
    h2 contentC3 preC3 rawEx (by decide) (by decide) (by decide), by decide⟩
